import Mathlib

/-!
Verification of the category tree engine of the FastApi catalog backend
(`app/services/category_service.py`), shallowly embedded over a list-based
model of the Mongo `categories` collection.

Conventions of the embedding:
* a Mongo document of the `categories` collection is a `Category` record;
  the collection itself is a `Store` (a `List Category`), `insert_one`
  appends, `find_one {id: i}` is `findById` (first match), `delete_one` is
  `eraseFirstById`, `update_one` is `updateFirstById` (first match),
  `update_many` is a `List.map` guarded by the query predicate;
* pydantic "exclude_unset" tri-state patch fields are `Option (Option α)`:
  `none` = key absent, `some none` = key present with null,
  `some (some v)` = key present with value `v`;
* machine integers of the source are unbounded `Int` (Python ints);
* timestamps are an abstract `Nat` clock value passed to each operation;
* `uuid4()` is a caller-supplied fresh identifier string;
* operations return `Except Err α × Store`: the error constructors follow
  the error taxonomy of the spec, and the returned store is the state of
  the collection when the operation finished (unchanged on failures that
  occur before any write, exactly as in the source, where every
  validation read precedes the first write).
-/

namespace CategoryEngine

/-- Persisted category document (`app/models/category.py`, class `Category`).
`name` is required at creation but an update patch may null it, and `order`
may likewise be nulled by a patch, so both are stored as `Option` here,
mirroring what the Mongo document can hold. -/
structure Category where
  id : String
  name : Option String
  description : Option String := none
  parent_id : Option String := none
  order : Option Int := none
  image_id : Option String := none
  image_url : Option String := none
  created_at : Nat := 0
  updated_at : Nat := 0
deriving Repr, DecidableEq

/-- The `categories` collection. -/
abbrev Store := List Category

/-- Error taxonomy of the spec (section 7); each constructor corresponds to
one family of `ValueError` messages raised by the service. -/
inductive Err where
  /-- "Parent category with id ... does not exist" -/
  | parentNotFound
  /-- "Category with name ... already exists under the same parent" -/
  | duplicateName
  /-- "Cannot set a child category as parent (loop detected)" -/
  | cycleDetected
  /-- "invalid image_id" -/
  | invalidImage
  /-- "Order must be a non-negative integer" / "Order cannot be negative" /
  "Duplicate order value" -/
  | invalidOrder
  /-- "Category with id ... not found" / "Category not found" -/
  | categoryNotFound
  /-- "All categories must have the same parent_id" -/
  | mixedParents
  /-- "Cannot delete category with children" -/
  | hasChildren
  /-- the Python `while` loop of `_validate_no_loop` never exits -/
  | nonTermination
  /-- a Python `TypeError` (comparing or adding `None` and `int`) -/
  | typeError
deriving Repr, DecidableEq

/-- `self.collection.find_one({"id": i})`. -/
def findById (s : Store) (i : String) : Option Category :=
  s.find? (fun c => c.id == i)

/-- `self.collection.delete_one({"id": i})`: removes the first match. -/
def eraseFirstById (s : Store) (i : String) : Store :=
  s.eraseP (fun c => c.id == i)

/-- `self.collection.update_one({"id": i}, ...)`: rewrites the first match. -/
def updateFirstById (s : Store) (i : String) (f : Category → Category) : Store :=
  match s with
  | [] => []
  | c :: rest => if c.id == i then f c :: rest else c :: updateFirstById rest i f

/-- Mongo query `{"name": n, "parent_id": pid, "id": {"$ne": e}}` (the
`$ne` clause only when `excl` is given), as used by `_check_name_uniqueness`. -/
def nameClash (s : Store) (n : Option String) (pid : Option String)
    (excl : Option String) : Bool :=
  s.any (fun c => c.name == n && c.parent_id == pid &&
    (match excl with | none => true | some e => c.id != e))

/-- Maximum of a list of integers (`none` on the empty list). -/
def listMaxInt : List Int → Option Int
  | [] => none
  | x :: xs =>
    match listMaxInt xs with
    | none => some x
    | some m => some (max x m)

/-- `_next_order`: the siblings under `pid` are sorted by `order` descending
and the top document's order plus one is returned, `0` if there is no
sibling.  In BSON descending order numeric values come before nulls, so the
top document carries the numeric maximum whenever some sibling has a numeric
order; if every sibling's order is null, `doc[0].get("order", -1) + 1` is
`None + 1`, a Python `TypeError`, modelled as `none`. -/
def nextOrder (s : Store) (pid : Option String) : Option Int :=
  let sibs := s.filter (fun c => c.parent_id == pid)
  if sibs.isEmpty then some 0
  else
    match listMaxInt (sibs.filterMap (·.order)) with
    | some m => some (m + 1)
    | none => none

/-- A document of the `files` collection, projected to what
`_find_file_by_any_id` reads. -/
structure FileRec where
  id : String
  url : Option String
deriving Repr, DecidableEq

/-- The `files` collection. -/
abbrev FileStore := List FileRec

/-- `_find_file_by_any_id`: first file whose identifier matches (the id /
_id / UUID representation variants all denote the same string key here). -/
def findFile (fs : FileStore) (i : String) : Option FileRec :=
  fs.find? (fun f => f.id == i)

/-- Image-related entries of the mutable `data` dict handled by
`_autofill_image_url`; outer `none` means the key is absent. -/
structure ImgFields where
  image_id : Option (Option String) := none
  image_url : Option (Option String) := none
deriving Repr, DecidableEq

/-- Python `str.strip() == ""`: every character of the string is
whitespace (also true of the empty string). -/
def isBlank (s : String) : Bool := s.data.all (fun ch => ch.isWhitespace)

/-- Python truthiness of `data.get("image_url")`: an absent key, `None`, and
the empty string are all falsy. -/
def urlTruthy : Option (Option String) → Bool
  | some (some u) => u != ""
  | _ => false

/-- `_autofill_image_url`: if the `image_id` key is present and null/blank,
both image keys are cleared; if it is present and non-blank and no truthy
`image_url` accompanies it, the file record is resolved (error if absent)
and its `url` is written to `image_url`. -/
def autofillImage (fs : FileStore) (d : ImgFields) : Except Err ImgFields :=
  match d.image_id with
  | none => .ok d
  | some none => .ok { image_id := some none, image_url := some none }
  | some (some s) =>
    if isBlank s then .ok { image_id := some none, image_url := some none }
    else if urlTruthy d.image_url then .ok d
    else
      match findFile fs s with
      | none => .error .invalidImage
      | some f => .ok { d with image_url := some f.url }

/-- Pydantic validator `_image_id_empty_string_to_none` on the create and
update models: a blank-string `image_id` is normalized to null before the
service sees the payload. -/
def normalizeImageId : Option (Option String) → Option (Option String)
  | some (some s) => if isBlank s then some none else some (some s)
  | v => v

/-- Create payload (`CategoryCreate`).  `order` collapses the unset and the
explicit-null cases, exactly as `data.get("order") is None` does; the image
fields keep the key-present bit, as `"image_id" in data` reads it. -/
structure CategoryCreate where
  name : String
  description : Option String := none
  parent_id : Option String := none
  order : Option Int := none
  image_id : Option (Option String) := none
  image_url : Option (Option String) := none
deriving Repr, DecidableEq

/-- Part of `CategoryService.create` after the parent-existence check:
name-uniqueness check, order assignment, image autofill, insertion. -/
def createAfterParent (fs : FileStore) (s : Store) (p : CategoryCreate)
    (newId : String) (now : Nat) : Except Err Category × Store :=
  if nameClash s (some p.name) p.parent_id none then (.error .duplicateName, s)
  else
    let ord : Option Int :=
      match p.order with
      | some v => some v
      | none => nextOrder s p.parent_id
    match ord with
    | none => (.error .typeError, s)
    | some v =>
      match autofillImage fs { image_id := p.image_id, image_url := p.image_url } with
      | .error e => (.error e, s)
      | .ok img =>
        let c : Category :=
          { id := newId, name := some p.name, description := p.description,
            parent_id := p.parent_id, order := some v,
            image_id := img.image_id.join, image_url := img.image_url.join,
            created_at := now, updated_at := now }
        (.ok c, s ++ [c])

/-- `CategoryService.create`. -/
def create (fs : FileStore) (s : Store) (p : CategoryCreate) (newId : String)
    (now : Nat) : Except Err Category × Store :=
  match p.parent_id with
  | some pid =>
    if (findById s pid).isNone then (.error .parentNotFound, s)
    else createAfterParent fs s p newId now
  | none => createAfterParent fs s p newId now

/-- `CategoryService.delete`. -/
def delete (s : Store) (i : String) : Except Err Bool × Store :=
  match findById s i with
  | none => (.ok false, s)
  | some _ =>
    if s.any (fun c => c.parent_id == some i) then (.error .hasChildren, s)
    else (.ok true, eraseFirstById s i)

/-- Outcome of one run of the `while` loop of `_validate_no_loop`. -/
inductive WalkResult where
  | ok
  | cycle
  | fuelOut
deriving Repr, DecidableEq

/-- `_validate_no_loop`: starting from `start`, repeatedly follow
`parent_id` links; raise (`.cycle`) if `target` is met, stop normally on a
null link or a missing record.  The Python loop carries no fuel; `.fuelOut`
marks the executions on which it would never exit. -/
def walkNoLoop (s : Store) (target : String) : Nat → Option String → WalkResult
  | _, none => .ok
  | 0, some _ => .fuelOut
  | fuel + 1, some c =>
    if c = target then .cycle
    else
      match findById s c with
      | none => .ok
      | some r => walkNoLoop s target fuel r.parent_id

/-- Update payload (`CategoryUpdate`) with pydantic tri-state fields:
outer `none` = field not in `model_fields_set`. -/
structure CategoryUpdate where
  name : Option (Option String) := none
  description : Option (Option String) := none
  parent_id : Option (Option String) := none
  order : Option (Option Int) := none
  image_id : Option (Option String) := none
  image_url : Option (Option String) := none
deriving Repr, DecidableEq

/-- Effective post-patch name, as `update` computes it for the uniqueness
re-check. -/
def effectiveName (current : Category) (p : CategoryUpdate) : Option String :=
  match p.name with
  | some v => v
  | none => current.name

/-- Effective post-patch parent, as `update` computes it. -/
def effectiveParent (current : Category) (p : CategoryUpdate) : Option String :=
  match p.parent_id with
  | some v => v
  | none => current.parent_id

/-- Parent validation of `update`: only when `parent_id` is in the patch and
non-null, first the ancestor walk (cycle check), then parent existence. -/
def parentCheck (s : Store) (i : String) (p : CategoryUpdate) : Except Err Unit :=
  match p.parent_id with
  | some (some pid) =>
    match walkNoLoop s i (s.length + 1) (some pid) with
    | .cycle => .error .cycleDetected
    | .fuelOut => .error .nonTermination
    | .ok => if (findById s pid).isNone then .error .parentNotFound else .ok ()
  | _ => .ok ()

/-- Applies a `$set` of the patched keys to a stored document, refreshing
`updated_at`, as `find_one_and_update` does with `update_doc`. -/
def applySet (c : Category) (u : CategoryUpdate) (now : Nat) : Category :=
  { c with
    name := (u.name).getD c.name,
    description := (u.description).getD c.description,
    parent_id := (u.parent_id).getD c.parent_id,
    order := (u.order).getD c.order,
    image_id := (u.image_id).getD c.image_id,
    image_url := (u.image_url).getD c.image_url,
    updated_at := now }

/-- Collision handling of `update` when the patch carries a numeric order
`v`: if some other document under `pid` already holds order `v`, every other
document under `pid` with numeric order at least `v` is shifted up by one
(`update_many` with `$inc: 1`). -/
def shiftForInsert (s : Store) (i : String) (pid : Option String) (v : Int)
    (now : Nat) : Store :=
  if s.any (fun c => c.parent_id == pid && c.order == some v && c.id != i) then
    s.map (fun c =>
      if c.parent_id == pid &&
         (match c.order with | some o => decide (v ≤ o) | none => false) &&
         c.id != i
      then { c with order := c.order.map (· + 1), updated_at := now }
      else c)
  else s

/-- Final write of `update`: `find_one_and_update({"id": i}, {"$set": ...})`
returning the updated document (`.ok none` is the vanished-record branch). -/
def finishUpdate (s : Store) (i : String) (udoc : CategoryUpdate) (now : Nat) :
    Except Err (Option Category) × Store :=
  match findById s i with
  | none => (.ok none, s)
  | some c =>
    (.ok (some (applySet c udoc now)), updateFirstById s i (fun x => applySet x udoc now))

/-- `CategoryService.update`.  `.ok none` is the not-found outcome (mapped
to 404 by the route), `.ok (some c)` the success outcome. -/
def update (fs : FileStore) (s : Store) (i : String) (p : CategoryUpdate)
    (now : Nat) : Except Err (Option Category) × Store :=
  match findById s i with
  | none => (.ok none, s)
  | some current =>
    match parentCheck s i p with
    | .error e => (.error e, s)
    | .ok _ =>
      if nameClash s (effectiveName current p) (effectiveParent current p) (some i) then
        (.error .duplicateName, s)
      else
        match autofillImage fs { image_id := p.image_id, image_url := p.image_url } with
        | .error e => (.error e, s)
        | .ok img =>
          let udoc : CategoryUpdate :=
            { p with image_id := img.image_id, image_url := img.image_url }
          match udoc.order with
          | some (some v) =>
            if v < 0 then (.error .invalidOrder, s)
            else finishUpdate (shiftForInsert s i (effectiveParent current p) v now) i udoc now
          | _ => finishUpdate s i udoc now

/-- One element of the bulk-reorder payload (`ReorderCategory`). -/
structure ReorderItem where
  id : String
  order : Int
deriving Repr, DecidableEq

/-- Python `set.add`. -/
def insertDistinct (x : Option String) (l : List (Option String)) :
    List (Option String) :=
  if x ∈ l then l else x :: l

/-- Validation loop of `reorder`: per item, non-negative order, existing
category, order not seen before; accumulates the distinct parents. -/
def reorderValidate (s : Store) :
    List ReorderItem → List (Option String) → List Int →
    Except Err (List (Option String))
  | [], parents, _ => .ok parents
  | item :: rest, parents, orders =>
    if item.order < 0 then .error .invalidOrder
    else
      match findById s item.id with
      | none => .error .categoryNotFound
      | some cat =>
        let parents' := insertDistinct cat.parent_id parents
        if item.order ∈ orders then .error .invalidOrder
        else reorderValidate s rest parents' (item.order :: orders)

/-- Write phase of `reorder`: one `update_one` per item, in payload order. -/
def applyReorder (s : Store) (items : List ReorderItem) (now : Nat) : Store :=
  items.foldl
    (fun acc item =>
      updateFirstById acc item.id
        (fun c => { c with order := some item.order, updated_at := now }))
    s

/-- `CategoryService.reorder`.  The mixed-parents check runs after the whole
per-item loop; no document is written before validation completes. -/
def reorder (s : Store) (items : List ReorderItem) (now : Nat) :
    Except Err Bool × Store :=
  if items.isEmpty then (.ok true, s)
  else
    match reorderValidate s items [] [] with
    | .error e => (.error e, s)
    | .ok parents =>
      if parents.length > 1 then (.error .mixedParents, s)
      else (.ok true, applyReorder s items now)

/-- `CategoryService.reorder_single`.  A null stored order makes the Python
comparison `new_order > current_order` raise, modelled as `.typeError`. -/
def reorderSingle (s : Store) (cid : String) (new_order : Int) (now : Nat) :
    Except Err Bool × Store :=
  if new_order < 0 then (.error .invalidOrder, s)
  else
    match findById s cid with
    | none => (.error .categoryNotFound, s)
    | some target =>
      match target.order with
      | none => (.error .typeError, s)
      | some cur =>
        if new_order = cur then (.ok true, s)
        else
          let direction : Int := if new_order > cur then 1 else -1
          let low := min cur new_order
          let high := max cur new_order
          let s1 := s.map (fun c =>
            if c.parent_id == target.parent_id &&
               (match c.order with
                | some o => decide (low ≤ o) && decide (o ≤ high)
                | none => false) &&
               c.id != cid
            then { c with order := c.order.map (fun o => o - direction), updated_at := now }
            else c)
          let s2 := updateFirstById s1 cid
            (fun c => { c with order := some new_order, updated_at := now })
          (.ok true, s2)

/-- Equality filters the category list route can pass to `list`. -/
structure ListFilters where
  name : Option String := none
  parent_id : Option String := none
deriving Repr, DecidableEq

/-- Conjunction of the equality filters. -/
def matchesFilters (f : ListFilters) (c : Category) : Bool :=
  (match f.name with | none => true | some n => c.name == some n) &&
  (match f.parent_id with | none => true | some p => c.parent_id == some p)

/-- BSON ascending comparison on a nullable key: null sorts before values. -/
def optLe {α : Type} (le : α → α → Bool) : Option α → Option α → Bool
  | none, _ => true
  | some _, none => false
  | some a, some b => le a b

/-- The `(parent_id, order)` ascending sort key of `list`. -/
def catKeyLe (a b : Category) : Bool :=
  if a.parent_id == b.parent_id then
    optLe (fun x y : Int => decide (x ≤ y)) a.order b.order
  else
    optLe (fun x y : String => decide (x ≤ y)) a.parent_id b.parent_id

/-- `CategoryService.list`: Mongo applies the sort before skip and limit;
`total` counts the matching documents ignoring pagination. -/
def listCategories (s : Store) (f : ListFilters) (page limit : Nat) :
    List Category × Nat :=
  let matching := s.filter (matchesFilters f)
  let sorted := matching.mergeSort catKeyLe
  (((sorted.drop ((page - 1) * limit)).take limit), matching.length)

/-! Invariants of the spec and the reachability relation of the parent graph. -/

/-- The `uniq_id` unique index: stored ids are pairwise distinct. -/
def NodupIds (s : Store) : Prop := (s.map (·.id)).Nodup

instance (s : Store) : Decidable (NodupIds s) := by
  unfold NodupIds; infer_instance

/-- Invariant I1: names are pairwise distinct under a fixed parent. -/
def NamesUnique (s : Store) : Prop :=
  s.Pairwise (fun a b => a.parent_id = b.parent_id → a.name ≠ b.name)

instance (s : Store) : Decidable (NamesUnique s) :=
  inferInstanceAs (Decidable (s.Pairwise _))

/-- A stored order value that is numeric and non-negative. -/
def orderOk : Option Int → Prop
  | some v => 0 ≤ v
  | none => False

instance (o : Option Int) : Decidable (orderOk o) := by
  cases o <;> simp only [orderOk] <;> infer_instance

/-- Invariant I2: under a fixed parent, order values are pairwise distinct
and non-negative. -/
def OrderInvariant (s : Store) : Prop :=
  (∀ c ∈ s, orderOk c.order) ∧
  s.Pairwise (fun a b => a.parent_id = b.parent_id → a.order ≠ b.order)

instance (s : Store) : Decidable (OrderInvariant s) :=
  inferInstanceAs (Decidable (_ ∧ _))

/-- One parent edge of the stored graph: some record has id `a` and parent
`b`. -/
def ParentLink (s : Store) (a b : String) : Prop :=
  ∃ r ∈ s, r.id = a ∧ r.parent_id = some b

/-- The parent step the service actually takes: `get(a)` (first match) has
parent `b`. -/
def StepsTo (s : Store) (a b : String) : Prop :=
  ∃ r, findById s a = some r ∧ r.parent_id = some b

/-- Invariant I3 as the claims state it: following `parent_id` links never
revisits the starting id. -/
def Acyclic (s : Store) : Prop := ∀ a, ¬ Relation.TransGen (ParentLink s) a a

/-! Generic facts about the list-level Mongo primitives. -/

theorem mem_of_findById {s : Store} {i : String} {c : Category}
    (h : findById s i = some c) : c ∈ s ∧ c.id = i := by
  refine ⟨List.mem_of_find?_eq_some h, ?_⟩
  have hp := List.find?_some h
  simpa using hp

theorem map_eq_self_of {α : Type} {f : α → α} {l : List α}
    (h : ∀ a ∈ l, f a = a) : l.map f = l := by
  have := List.map_congr_left (g := id) h
  simpa using this

theorem nodup_map_inj {α β : Type} {f : α → β} {l : List α}
    (hnd : (l.map f).Nodup) {a b : α} (ha : a ∈ l) (hb : b ∈ l)
    (hf : f a = f b) : a = b := by
  induction l with
  | nil => cases ha
  | cons x rest ih =>
    simp only [List.map_cons, List.nodup_cons] at hnd
    rcases List.mem_cons.mp ha with rfl | ha'
    · rcases List.mem_cons.mp hb with rfl | hb'
      · rfl
      · exact absurd (show f a ∈ rest.map f by
          rw [hf]; exact List.mem_map_of_mem f hb') hnd.1
    · rcases List.mem_cons.mp hb with rfl | hb'
      · exact absurd (show f b ∈ rest.map f by
          rw [← hf]; exact List.mem_map_of_mem f ha') hnd.1
      · exact ih hnd.2 ha' hb'

theorem findById_self {s : Store} (hids : NodupIds s) {c : Category}
    (hc : c ∈ s) : findById s c.id = some c := by
  induction s with
  | nil => cases hc
  | cons a rest ih =>
    simp only [NodupIds, List.map_cons, List.nodup_cons] at hids
    rcases List.mem_cons.mp hc with rfl | hc'
    · simp [findById]
    · have hne : (a.id == c.id) = false := by
        refine beq_eq_false_iff_ne.mpr ?_
        intro h
        exact hids.1 (h ▸ List.mem_map_of_mem _ hc')
      unfold findById at ih ⊢
      rw [List.find?_cons_of_neg _ (by simp [hne])]
      exact ih hids.2 hc'

theorem findById_map {s : Store} {h : Category → Category}
    (hid : ∀ c, (h c).id = c.id) (i : String) :
    findById (s.map h) i = (findById s i).map h := by
  unfold findById
  rw [List.find?_map]
  have hfun : ((fun c => c.id == i) ∘ h) = (fun (c : Category) => c.id == i) := by
    funext c
    simp [Function.comp, hid]
  rw [hfun]

theorem updateFirstById_eq_map {s : Store} (hids : NodupIds s) (i : String)
    (f : Category → Category) :
    updateFirstById s i f = s.map (fun c => if c.id = i then f c else c) := by
  induction s with
  | nil => rfl
  | cons a rest ih =>
    simp only [NodupIds, List.map_cons, List.nodup_cons] at hids
    by_cases hai : a.id = i
    · have hrest : ∀ c ∈ rest, c.id ≠ i := by
        intro c hc h
        exact hids.1 (by rw [hai, ← h]; exact List.mem_map_of_mem _ hc)
      have hmap : rest.map (fun c => if c.id = i then f c else c) = rest := by
        refine map_eq_self_of ?_
        intro c hc
        simp [hrest c hc]
      simp [updateFirstById, hai, hmap]
    · simpa [updateFirstById, hai] using ih hids.2

theorem eraseFirstById_eq_filter {s : Store} (hids : NodupIds s) (i : String) :
    eraseFirstById s i = s.filter (fun c => c.id != i) := by
  unfold eraseFirstById
  induction s with
  | nil => rfl
  | cons a rest ih =>
    simp only [NodupIds, List.map_cons, List.nodup_cons] at hids
    rw [List.eraseP_cons, List.filter_cons]
    by_cases hai : a.id = i
    · have hrest : ∀ c ∈ rest, (c.id != i) = true := by
        intro c hc
        refine bne_iff_ne.mpr ?_
        intro h
        exact hids.1 (by rw [hai, ← h]; exact List.mem_map_of_mem _ hc)
      have hfil : rest.filter (fun c => c.id != i) = rest :=
        List.filter_eq_self.mpr hrest
      simp [hai, hfil]
    · have hb : (a.id == i) = false := beq_eq_false_iff_ne.mpr hai
      simp [hai, hb, ih hids.2]

theorem listMaxInt_eq_none_iff {l : List Int} : listMaxInt l = none ↔ l = [] := by
  cases l with
  | nil => simp [listMaxInt]
  | cons x xs =>
    simp only [listMaxInt]
    cases listMaxInt xs <;> simp

theorem listMaxInt_mem {l : List Int} {m : Int} (h : listMaxInt l = some m) :
    m ∈ l := by
  induction l generalizing m with
  | nil => simp [listMaxInt] at h
  | cons x xs ih =>
    simp only [listMaxInt] at h
    cases hxs : listMaxInt xs with
    | none =>
      rw [hxs] at h
      simp only [Option.some.injEq] at h
      simp [← h]
    | some m' =>
      rw [hxs] at h
      simp only [Option.some.injEq] at h
      rcases max_choice x m' with hc | hc <;> rw [hc] at h
      · simp [← h]
      · exact List.mem_cons_of_mem _ (h ▸ ih hxs)

theorem le_listMaxInt {l : List Int} {m a : Int} (h : listMaxInt l = some m)
    (ha : a ∈ l) : a ≤ m := by
  induction l generalizing m with
  | nil => cases ha
  | cons x xs ih =>
    simp only [listMaxInt] at h
    cases hxs : listMaxInt xs with
    | none =>
      rw [hxs] at h
      simp only [Option.some.injEq] at h
      have : xs = [] := listMaxInt_eq_none_iff.mp hxs
      subst this
      rcases List.mem_singleton.mp ha with rfl
      omega
    | some m' =>
      rw [hxs] at h
      simp only [Option.some.injEq] at h
      rcases List.mem_cons.mp ha with rfl | ha'
      · omega
      · have := ih hxs ha'
        omega

/-! Claim C6: delete semantics. -/

/-- C6: `delete(id)` reports NotFound (returns `false`) when no category
with that id exists, fails with the has-children conflict error when the
category has at least one child — leaving the store unchanged in both
failure cases — and otherwise removes exactly that one category record and
returns `true`, leaving all other records unchanged. -/
theorem delete_spec (s : Store) (i : String) (hids : NodupIds s) :
    (findById s i = none → delete s i = (.ok false, s)) ∧
    ((∃ c, findById s i = some c) → (∃ ch ∈ s, ch.parent_id = some i) →
      delete s i = (.error .hasChildren, s)) ∧
    ((∃ c, findById s i = some c) → (∀ ch ∈ s, ch.parent_id ≠ some i) →
      delete s i = (.ok true, s.filter (fun c => c.id != i)) ∧
      (∀ c ∈ s, c.id ≠ i → c ∈ (delete s i).2) ∧
      (∀ c ∈ (delete s i).2, c ∈ s)) := by
  refine ⟨?_, ?_, ?_⟩
  · intro h
    simp [delete, h]
  · rintro ⟨c, hc⟩ ⟨ch, hch, hpar⟩
    have hany : s.any (fun c => c.parent_id == some i) = true :=
      List.any_eq_true.mpr ⟨ch, hch, by simp [hpar]⟩
    simp [delete, hc, hany]
  · rintro ⟨c, hc⟩ hno
    have hany : s.any (fun c => c.parent_id == some i) = false := by
      rw [← Bool.not_eq_true, List.any_eq_true]
      rintro ⟨ch, hch, hb⟩
      exact hno ch hch (by simpa using hb)
    have hdel : delete s i = (.ok true, s.filter (fun c => c.id != i)) := by
      simp [delete, hc, hany, eraseFirstById_eq_filter hids]
    refine ⟨hdel, ?_, ?_⟩
    · intro c' hc' hne
      rw [hdel]
      simp [List.mem_filter, hc', hne]
    · intro c' hc'
      rw [hdel] at hc'
      simp only [List.mem_filter] at hc'
      exact hc'.1

/-- Concrete store for the `delete_spec` witness. -/
def c6store : Store := [{ id := "a", name := some "A" }, { id := "b", name := some "B" }]

/-- Witness for C6: deleting the childless record "a" removes exactly it. -/
theorem delete_spec_witness :
    delete c6store "a" = (.ok true, c6store.filter (fun c => c.id != "a")) :=
  ((delete_spec c6store "a" (by decide)).2.2 ⟨_, rfl⟩ (by decide)).1

/-! Claim C7: automatic order assignment on create. -/

/-- C7: when the create payload's order is omitted or null, the created
category's order equals the maximum order among existing categories with
the same `parent_id` plus one, or 0 when no such sibling exists. -/
theorem create_auto_order (fs : FileStore) (s : Store) (p : CategoryCreate)
    (newId : String) (now : Nat) (c : Category) (s' : Store)
    (hord : p.order = none)
    (hok : create fs s p newId now = (.ok c, s')) :
    ((s.filter (fun x => x.parent_id == p.parent_id)) = [] → c.order = some 0) ∧
    (∀ sib ∈ s, sib.parent_id = p.parent_id →
      ∃ m, c.order = some (m + 1) ∧
        (∃ x ∈ s, x.parent_id = p.parent_id ∧ x.order = some m) ∧
        (∀ x ∈ s, x.parent_id = p.parent_id → ∀ v, x.order = some v → v ≤ m)) := by
  have hca : createAfterParent fs s p newId now = (.ok c, s') := by
    unfold create at hok
    split at hok
    · split at hok
      · exact absurd hok (by simp)
      · exact hok
    · exact hok
  unfold createAfterParent at hca
  rw [hord] at hca
  by_cases hnc : nameClash s (some p.name) p.parent_id none = true
  · rw [if_pos hnc] at hca
    exact absurd hca (by simp)
  · rw [if_neg hnc] at hca
    cases hno : nextOrder s p.parent_id with
    | none =>
      simp only [hno] at hca
      exact absurd hca (by simp)
    | some v =>
      simp only [hno] at hca
      cases haf : autofillImage fs { image_id := p.image_id, image_url := p.image_url } with
      | error e =>
        simp only [haf] at hca
        exact absurd hca (by simp)
      | ok img =>
        simp only [haf, Prod.mk.injEq, Except.ok.injEq] at hca
        have hco : c.order = some v := by
          rw [← hca.1]
        simp only [nextOrder] at hno
        constructor
        · intro hempty
          rw [hempty] at hno
          simp only [List.isEmpty_nil, if_true] at hno
          rw [hco]
          congr 1
          simp only [Option.some.injEq] at hno
          omega
        · intro sib hsib hpar
          have hmem : sib ∈ s.filter (fun x => x.parent_id == p.parent_id) := by
            rw [List.mem_filter]
            exact ⟨hsib, by simp [hpar]⟩
          have hnonempty :
              (s.filter (fun x => x.parent_id == p.parent_id)).isEmpty = false := by
            cases h : (s.filter (fun x => x.parent_id == p.parent_id)).isEmpty
            · rfl
            · rw [List.isEmpty_iff.mp h] at hmem
              cases hmem
          rw [hnonempty] at hno
          simp only [Bool.false_eq_true, if_false] at hno
          split at hno
          · rename_i m hmax
            refine ⟨m, ?_, ?_, ?_⟩
            · rw [hco]
              congr 1
              simp only [Option.some.injEq] at hno
              omega
            · have hm := listMaxInt_mem hmax
              rw [List.mem_filterMap] at hm
              obtain ⟨x, hx, hxo⟩ := hm
              rw [List.mem_filter] at hx
              exact ⟨x, hx.1, by simpa using hx.2, hxo⟩
            · intro x hx hxp v' hxo
              refine le_listMaxInt hmax ?_
              rw [List.mem_filterMap]
              exact ⟨x, List.mem_filter.mpr ⟨hx, by simp [hxp]⟩, hxo⟩
          · exact absurd hno (by simp)

/-- Concrete store for the `create_auto_order` witness: "Drinks" has
order 0, so the next root sibling gets order 1. -/
def c7store : Store := [{ id := "d", name := some "Drinks", order := some 0 }]

/-- Witness for C7: the second root category is created with order 1,
that is, one more than the maximal existing root order 0. -/
theorem create_auto_order_witness :
    ∃ m : Int, (∃ x ∈ c7store, x.parent_id = none ∧ x.order = some m) ∧ m = 0 := by
  obtain ⟨m, hm, hex, hub⟩ :=
    (create_auto_order [] c7store { name := "Snacks" } "s" 1
      { id := "s", name := some "Snacks", order := some 1, created_at := 1, updated_at := 1 }
      (c7store ++ [{ id := "s", name := some "Snacks", order := some 1, created_at := 1, updated_at := 1 }])
      rfl (by rfl)).2
      { id := "d", name := some "Drinks", order := some 0 } (by simp [c7store]) rfl
  have h1 : (1 : Int) = m + 1 := by simpa using hm
  exact ⟨m, by simpa using hex, by omega⟩

/-! Claim C2: order invariant under create. -/

theorem create_ok_inversion {fs : FileStore} {s : Store} {p : CategoryCreate}
    {newId : String} {now : Nat} {c : Category} {s' : Store}
    (hok : create fs s p newId now = (.ok c, s')) :
    ∃ v img,
      nameClash s (some p.name) p.parent_id none = false ∧
      (match p.order with
       | some w => some w
       | none => nextOrder s p.parent_id) = some v ∧
      autofillImage fs { image_id := p.image_id, image_url := p.image_url } = .ok img ∧
      c = { id := newId, name := some p.name, description := p.description,
            parent_id := p.parent_id, order := some v,
            image_id := img.image_id.join, image_url := img.image_url.join,
            created_at := now, updated_at := now } ∧
      s' = s ++ [c] := by
  have hca : createAfterParent fs s p newId now = (.ok c, s') := by
    unfold create at hok
    split at hok
    · split at hok
      · exact absurd hok (by simp)
      · exact hok
    · exact hok
  unfold createAfterParent at hca
  by_cases hnc : nameClash s (some p.name) p.parent_id none = true
  · rw [if_pos hnc] at hca
    exact absurd hca (by simp)
  · rw [if_neg hnc] at hca
    cases hno : (match p.order with
                 | some w => some w
                 | none => nextOrder s p.parent_id) with
    | none =>
      simp only [hno] at hca
      exact absurd hca (by simp)
    | some v =>
      simp only [hno] at hca
      cases haf : autofillImage fs { image_id := p.image_id, image_url := p.image_url } with
      | error e =>
        simp only [haf] at hca
        exact absurd hca (by simp)
      | ok img =>
        simp only [haf, Prod.mk.injEq, Except.ok.injEq] at hca
        refine ⟨v, img, Bool.eq_false_iff.mpr hnc, rfl, rfl, hca.1.symm, ?_⟩
        rw [← hca.2, hca.1]

theorem nextOrder_cases {s : Store} {pid : Option String} {v : Int}
    (h : nextOrder s pid = some v) :
    (s.filter (fun c => c.parent_id == pid) = [] ∧ v = 0) ∨
    (∃ m, listMaxInt ((s.filter (fun c => c.parent_id == pid)).filterMap (·.order))
        = some m ∧ v = m + 1) := by
  simp only [nextOrder] at h
  cases he : (s.filter (fun c => c.parent_id == pid)).isEmpty
  · rw [he] at h
    simp only [Bool.false_eq_true, if_false] at h
    split at h
    · rename_i m hm
      right
      exact ⟨m, hm, by simpa using h.symm⟩
    · simp at h
  · rw [he] at h
    simp only [if_true] at h
    left
    exact ⟨List.isEmpty_iff.mp he, by simpa using h.symm⟩

/-- Concrete store for the C2 counterexample: one root category at order 0. -/
def c2store : Store := [{ id := "a", name := some "A", order := some 0 }]

/-- C2 counterexample: from a store satisfying I2, a create that supplies
the explicit order 0 — already taken by its root sibling — succeeds and
leaves two siblings with equal order, violating I2: `create` only computes
an order when none is given and never checks a caller-supplied order for
collisions or negativity. -/
theorem create_explicit_order_violates_I2 :
    OrderInvariant c2store ∧
    (create [] c2store { name := "B", order := some 0 } "b" 1).1.toOption.isSome = true ∧
    ¬ OrderInvariant (create [] c2store { name := "B", order := some 0 } "b" 1).2 := by
  refine ⟨by decide, by decide, by decide⟩

/-- C2 (amended): starting from any store satisfying invariant I2, every
successful create whose order field is omitted or null preserves it: the
auto-assigned order is one past the sibling maximum, hence non-negative and
distinct from every sibling order.  (A create with an explicit order value
is not covered: the code inserts it unchecked.) -/
theorem create_auto_order_preserves_I2 (fs : FileStore) (s : Store)
    (p : CategoryCreate) (newId : String) (now : Nat) (c : Category) (s' : Store)
    (hord : p.order = none)
    (hok : create fs s p newId now = (.ok c, s'))
    (hI2 : OrderInvariant s) : OrderInvariant s' := by
  obtain ⟨v, img, hnc, hordv, haf, hc, hs'⟩ := create_ok_inversion hok
  rw [hord] at hordv
  have hcpar : c.parent_id = p.parent_id := by rw [hc]
  rcases nextOrder_cases hordv with ⟨hempty, rfl⟩ | ⟨m, hmax, rfl⟩
  · constructor
    · intro x hx
      rw [hs'] at hx
      rcases List.mem_append.mp hx with h | h
      · exact hI2.1 x h
      · rw [List.mem_singleton.mp h, hc]
        exact (by norm_num [orderOk])
    · rw [hs', List.pairwise_append]
      refine ⟨hI2.2, by simp, ?_⟩
      intro a ha b hb hpar
      rw [List.mem_singleton.mp hb] at hpar
      exfalso
      have : a ∈ s.filter (fun x => x.parent_id == p.parent_id) := by
        rw [List.mem_filter]
        refine ⟨ha, by rw [hcpar] at hpar; simp [hpar]⟩
      rw [hempty] at this
      cases this
  · have hm0 : 0 ≤ m := by
      have hmem := listMaxInt_mem hmax
      rw [List.mem_filterMap] at hmem
      obtain ⟨x, hx, hxo⟩ := hmem
      rw [List.mem_filter] at hx
      have := hI2.1 x hx.1
      rw [hxo] at this
      exact this
    constructor
    · intro x hx
      rw [hs'] at hx
      rcases List.mem_append.mp hx with h | h
      · exact hI2.1 x h
      · rw [List.mem_singleton.mp h, hc]
        simp only [orderOk]
        omega
    · rw [hs', List.pairwise_append]
      refine ⟨hI2.2, by simp, ?_⟩
      intro a ha b hb hpar
      rw [List.mem_singleton.mp hb] at hpar ⊢
      have hain : a ∈ s.filter (fun x => x.parent_id == p.parent_id) := by
        rw [List.mem_filter]
        refine ⟨ha, by rw [hcpar] at hpar; simp [hpar]⟩
      have haok := hI2.1 a ha
      cases hao : a.order with
      | none => rw [hao] at haok; cases haok
      | some w =>
        have hwm : w ≤ m := by
          refine le_listMaxInt hmax ?_
          rw [List.mem_filterMap]
          exact ⟨a, hain, hao⟩
        intro hcon
        rw [hc] at hcon
        simp only [Option.some.injEq] at hcon
        omega

/-- Witness for the amended C2 theorem: creating "Snacks" with omitted
order next to "Drinks" (order 0) keeps I2. -/
theorem create_auto_order_preserves_I2_witness :
    OrderInvariant
      (create [] c7store { name := "Snacks" } "s" 1).2 := by
  refine create_auto_order_preserves_I2 [] c7store { name := "Snacks" } "s" 1
    { id := "s", name := some "Snacks", order := some 1, created_at := 1, updated_at := 1 }
    _ rfl (by rfl) (by decide)

/-! Inversion of a successful update, shared by the update-related claims. -/

/-- The `update_doc` dict after image autofill. -/
def updDoc (p : CategoryUpdate) (img : ImgFields) : CategoryUpdate :=
  { p with image_id := img.image_id, image_url := img.image_url }

/-- The store `update` writes its final `$set` into: the original store,
possibly with siblings shifted when the patch carries a numeric order. -/
def updBase (s : Store) (i : String) (p : CategoryUpdate) (now : Nat)
    (current : Category) : Store :=
  match p.order with
  | some (some v) => shiftForInsert s i (effectiveParent current p) v now
  | _ => s

theorem update_ok_inversion {fs : FileStore} {s : Store} {i : String}
    {p : CategoryUpdate} {now : Nat} {c : Category} {s' : Store}
    (hok : update fs s i p now = (.ok (some c), s')) :
    ∃ current img,
      findById s i = some current ∧
      parentCheck s i p = .ok () ∧
      nameClash s (effectiveName current p) (effectiveParent current p) (some i) = false ∧
      autofillImage fs { image_id := p.image_id, image_url := p.image_url } = .ok img ∧
      (∀ v, p.order = some (some v) → 0 ≤ v) ∧
      ∃ current₂,
        findById (updBase s i p now current) i = some current₂ ∧
        c = applySet current₂ (updDoc p img) now ∧
        s' = updateFirstById (updBase s i p now current) i
          (fun x => applySet x (updDoc p img) now) := by
  unfold update at hok
  cases hcur : findById s i with
  | none =>
    simp only [hcur] at hok
    exact absurd hok (by simp)
  | some current =>
    simp only [hcur] at hok
    cases hpc : parentCheck s i p with
    | error e =>
      simp only [hpc] at hok
      exact absurd hok (by simp)
    | ok u =>
      simp only [hpc] at hok
      by_cases hnc : nameClash s (effectiveName current p) (effectiveParent current p) (some i) = true
      · rw [if_pos hnc] at hok
        exact absurd hok (by simp)
      · rw [if_neg hnc] at hok
        cases haf : autofillImage fs { image_id := p.image_id, image_url := p.image_url } with
        | error e =>
          simp only [haf] at hok
          exact absurd hok (by simp)
        | ok img =>
          simp only [haf] at hok
          refine ⟨current, img, rfl, ?_, Bool.eq_false_iff.mpr hnc, rfl, ?_, ?_⟩
          · cases u
            rfl
          · intro v hv
            simp only [hv] at hok
            by_cases hvneg : v < 0
            · rw [if_pos hvneg] at hok
              exact absurd hok (by simp)
            · omega
          · cases hpo : p.order with
            | none =>
              simp only [hpo] at hok
              unfold finishUpdate at hok
              cases hfb : findById s i with
              | none =>
                simp only [hfb] at hok
                exact absurd hok (by simp)
              | some current₂ =>
                simp only [hfb, Prod.mk.injEq, Except.ok.injEq, Option.some.injEq] at hok
                refine ⟨current₂, ?_, ?_, ?_⟩
                · simp only [updBase, hpo]
                  exact hfb
                · simp only [updDoc, hpo]
                  exact hok.1.symm
                · simp only [updBase, updDoc, hpo]
                  exact hok.2.symm
            | some vo =>
              cases vo with
              | none =>
                simp only [hpo] at hok
                unfold finishUpdate at hok
                cases hfb : findById s i with
                | none =>
                  simp only [hfb] at hok
                  exact absurd hok (by simp)
                | some current₂ =>
                  simp only [hfb, Prod.mk.injEq, Except.ok.injEq, Option.some.injEq] at hok
                  refine ⟨current₂, ?_, ?_, ?_⟩
                  · simp only [updBase, hpo]
                    exact hfb
                  · simp only [updDoc, hpo]
                    exact hok.1.symm
                  · simp only [updBase, updDoc, hpo]
                    exact hok.2.symm
              | some v =>
                simp only [hpo] at hok
                by_cases hvneg : v < 0
                · rw [if_pos hvneg] at hok
                  exact absurd hok (by simp)
                · rw [if_neg hvneg] at hok
                  unfold finishUpdate at hok
                  cases hfb : findById (shiftForInsert s i (effectiveParent current p) v now) i with
                  | none =>
                    simp only [hfb] at hok
                    exact absurd hok (by simp)
                  | some current₂ =>
                    simp only [hfb, Prod.mk.injEq, Except.ok.injEq, Option.some.injEq] at hok
                    refine ⟨current₂, ?_, ?_, ?_⟩
                    · simp only [updBase, hpo]
                      exact hfb
                    · simp only [updDoc, hpo]
                      exact hok.1.symm
                    · simp only [updBase, updDoc, hpo]
                      exact hok.2.symm

theorem parentCheck_ok_inversion {s : Store} {i : String} {p : CategoryUpdate}
    (h : parentCheck s i p = .ok ()) {pid : String}
    (hp : p.parent_id = some (some pid)) :
    walkNoLoop s i (s.length + 1) (some pid) = .ok ∧
    (findById s pid).isSome = true := by
  unfold parentCheck at h
  simp only [hp] at h
  cases hw : walkNoLoop s i (s.length + 1) (some pid) with
  | cycle => simp only [hw] at h; cases h
  | fuelOut => simp only [hw] at h; cases h
  | ok =>
    simp only [hw] at h
    refine ⟨rfl, ?_⟩
    cases hf : findById s pid with
    | none => rw [hf] at h; simp at h
    | some r => rfl

theorem shiftForInsert_shape (s : Store) (i : String) (pid : Option String)
    (v : Int) (now : Nat) :
    ∃ g : Category → Category,
      shiftForInsert s i pid v now = s.map g ∧
      (∀ x, (g x).id = x.id ∧ (g x).name = x.name ∧
            (g x).parent_id = x.parent_id ∧ (g x).description = x.description ∧
            (g x).image_id = x.image_id ∧ (g x).image_url = x.image_url) ∧
      (∀ x, x.id = i → g x = x) := by
  unfold shiftForInsert
  cases hany : s.any (fun c => c.parent_id == pid && c.order == some v && c.id != i) with
  | false =>
    refine ⟨id, by simp, by simp, by simp⟩
  | true =>
    refine ⟨_, rfl, ?_, ?_⟩
    · intro x
      by_cases hc : (x.parent_id == pid &&
          (match x.order with | some o => decide (v ≤ o) | none => false) &&
          x.id != i) = true
      · simp [hc]
      · simp [hc]
    · intro x hx
      have hb : (x.id != i) = false := by simp [hx]
      simp [hb]

theorem update_ok_shape {fs : FileStore} {s : Store} {i : String}
    {p : CategoryUpdate} {now : Nat} {c : Category} {s' : Store}
    (hids : NodupIds s)
    (hok : update fs s i p now = (.ok (some c), s')) :
    ∃ (h : Category → Category) (current : Category),
      findById s i = some current ∧
      parentCheck s i p = .ok () ∧
      nameClash s (effectiveName current p) (effectiveParent current p) (some i) = false ∧
      s' = s.map h ∧
      (∀ x, (h x).id = x.id) ∧
      (∀ x, x.id ≠ i → (h x).name = x.name ∧ (h x).parent_id = x.parent_id) ∧
      (∀ x, x.id = i → (h x).name = effectiveName x p ∧
                       (h x).parent_id = effectiveParent x p) := by
  obtain ⟨current, img, hcur, hpc, hnc, haf, hnn, current₂, hfb, hc, hs'⟩ :=
    update_ok_inversion hok
  have hbase : ∃ g : Category → Category,
      updBase s i p now current = s.map g ∧
      (∀ x, (g x).id = x.id ∧ (g x).name = x.name ∧ (g x).parent_id = x.parent_id) ∧
      (∀ x, x.id = i → g x = x) := by
    unfold updBase
    cases hpo : p.order with
    | none => exact ⟨id, by simp, by simp, by simp⟩
    | some vo =>
      cases vo with
      | none => exact ⟨id, by simp, by simp, by simp⟩
      | some v =>
        obtain ⟨g, hg, hfields, htarget⟩ :=
          shiftForInsert_shape s i (effectiveParent current p) v now
        exact ⟨g, hg, fun x => ⟨(hfields x).1, (hfields x).2.1, (hfields x).2.2.1⟩,
          htarget⟩
  obtain ⟨g, hg, hgf, hgt⟩ := hbase
  have hidsbase : NodupIds (updBase s i p now current) := by
    unfold NodupIds
    rw [hg, List.map_map]
    have : ((fun x => x.id) ∘ g) = fun (x : Category) => x.id := by
      funext x
      exact (hgf x).1
    rw [this]
    exact hids
  have hupd : updateFirstById (updBase s i p now current) i
      (fun x => applySet x (updDoc p img) now)
      = (updBase s i p now current).map
          (fun x => if x.id = i then applySet x (updDoc p img) now else x) :=
    updateFirstById_eq_map hidsbase i _
  refine ⟨(fun x => if x.id = i then applySet x (updDoc p img) now else x) ∘ g,
    current, hcur, hpc, hnc, ?_, ?_, ?_, ?_⟩
  · rw [hs', hupd, hg, List.map_map]
  · intro x
    simp only [Function.comp]
    by_cases hx : (g x).id = i
    · simp only [hx, if_true]
      exact (hgf x).1
    · simp only [hx, if_false]
      exact (hgf x).1
  · intro x hx
    simp only [Function.comp]
    have hgx : (g x).id ≠ i := by rw [(hgf x).1]; exact hx
    simp only [hgx, if_false]
    exact ⟨(hgf x).2.1, (hgf x).2.2⟩
  · intro x hx
    simp only [Function.comp]
    rw [hgt x hx]
    simp only [hx, if_true]
    constructor
    · show (updDoc p img).name.getD x.name = effectiveName x p
      cases hpn : p.name <;> simp [updDoc, effectiveName, hpn]
    · show (updDoc p img).parent_id.getD x.parent_id = effectiveParent x p
      cases hpp : p.parent_id <;> simp [updDoc, effectiveParent, hpp]

theorem update_none_unchanged {fs : FileStore} {s : Store} {i : String}
    {p : CategoryUpdate} {now : Nat} {s' : Store}
    (hok : update fs s i p now = (.ok none, s')) : s' = s := by
  unfold update at hok
  cases hcur : findById s i with
  | none =>
    simp only [hcur, Prod.mk.injEq] at hok
    exact hok.2.symm
  | some current =>
    simp only [hcur] at hok
    cases hpc : parentCheck s i p with
    | error e =>
      simp only [hpc] at hok
      exact absurd hok (by simp)
    | ok u =>
      simp only [hpc] at hok
      by_cases hnc : nameClash s (effectiveName current p) (effectiveParent current p) (some i) = true
      · rw [if_pos hnc] at hok
        exact absurd hok (by simp)
      · rw [if_neg hnc] at hok
        cases haf : autofillImage fs { image_id := p.image_id, image_url := p.image_url } with
        | error e =>
          simp only [haf] at hok
          exact absurd hok (by simp)
        | ok img =>
          simp only [haf] at hok
          cases hpo : p.order with
          | none =>
            simp only [hpo] at hok
            unfold finishUpdate at hok
            rw [hcur] at hok
            exact absurd hok (by simp)
          | some vo =>
            cases vo with
            | none =>
              simp only [hpo] at hok
              unfold finishUpdate at hok
              rw [hcur] at hok
              exact absurd hok (by simp)
            | some v =>
              simp only [hpo] at hok
              by_cases hvneg : v < 0
              · rw [if_pos hvneg] at hok
                exact absurd hok (by simp)
              · rw [if_neg hvneg] at hok
                unfold finishUpdate at hok
                obtain ⟨g, hg, hfields, -⟩ :=
                  shiftForInsert_shape s i (effectiveParent current p) v now
                have hfb : findById (shiftForInsert s i (effectiveParent current p) v now) i
                    = some (g current) := by
                  rw [hg, findById_map (fun x => (hfields x).1), hcur]
                  rfl
                rw [hfb] at hok
                exact absurd hok (by simp)

/-! Claim C9: image id / url autofill semantics. -/

/-- C9: in both create and update, a present-but-null-or-blank `image_id`
clears both image fields of the resulting record; a present non-empty
`image_id` without an accompanying truthy `image_url` is resolved through
the file store — the operation fails with the invalid-reference error when
no file record resolves, and otherwise `image_url` is set to the resolved
file's url, so resolving the same valid `image_id` always yields the same
`image_url`. -/
theorem image_autofill_spec (fs : FileStore) :
    (∀ d : ImgFields,
      (d.image_id = some none ∨ (∃ str, d.image_id = some (some str) ∧ isBlank str = true)) →
      autofillImage fs d = .ok { image_id := some none, image_url := some none }) ∧
    (∀ (d : ImgFields) (str : String), d.image_id = some (some str) → isBlank str = false →
      urlTruthy d.image_url = false →
      (findFile fs str = none → autofillImage fs d = .error .invalidImage) ∧
      (∀ f, findFile fs str = some f →
        autofillImage fs d = .ok { d with image_url := some f.url })) ∧
    (∀ (d₁ d₂ : ImgFields) (r₁ r₂ : ImgFields) (str : String),
      d₁.image_id = some (some str) → d₂.image_id = some (some str) → isBlank str = false →
      urlTruthy d₁.image_url = false → urlTruthy d₂.image_url = false →
      autofillImage fs d₁ = .ok r₁ → autofillImage fs d₂ = .ok r₂ →
      r₁.image_url = r₂.image_url) ∧
    (∀ (s : Store) (p : CategoryCreate) (newId : String) (now : Nat) (c : Category) (s' : Store),
      create fs s p newId now = (.ok c, s') →
      (p.image_id = some none ∨ (∃ str, p.image_id = some (some str) ∧ isBlank str = true)) →
      c.image_id = none ∧ c.image_url = none) ∧
    (∀ (s : Store) (i : String) (p : CategoryUpdate) (now : Nat) (c : Category) (s' : Store),
      update fs s i p now = (.ok (some c), s') →
      (p.image_id = some none ∨ (∃ str, p.image_id = some (some str) ∧ isBlank str = true)) →
      c.image_id = none ∧ c.image_url = none) := by
  have hclear : ∀ d : ImgFields,
      (d.image_id = some none ∨ (∃ str, d.image_id = some (some str) ∧ isBlank str = true)) →
      autofillImage fs d = .ok { image_id := some none, image_url := some none } := by
    intro d hd
    rcases hd with hd | ⟨str, hd, hblank⟩
    · unfold autofillImage
      rw [hd]
    · unfold autofillImage
      rw [hd]
      simp [hblank]
  have hresolve : ∀ (d : ImgFields) (str : String), d.image_id = some (some str) →
      isBlank str = false → urlTruthy d.image_url = false →
      (findFile fs str = none → autofillImage fs d = .error .invalidImage) ∧
      (∀ f, findFile fs str = some f →
        autofillImage fs d = .ok { d with image_url := some f.url }) := by
    intro d str hd hblank hurl
    constructor
    · intro hff
      unfold autofillImage
      rw [hd]
      simp [hblank, hurl, hff]
    · intro f hff
      unfold autofillImage
      rw [hd]
      simp [hblank, hurl, hff]
  refine ⟨hclear, hresolve, ?_, ?_, ?_⟩
  · intro d₁ d₂ r₁ r₂ str h₁ h₂ hblank hu₁ hu₂ hok₁ hok₂
    cases hff : findFile fs str with
    | none =>
      rw [(hresolve d₁ str h₁ hblank hu₁).1 hff] at hok₁
      cases hok₁
    | some f =>
      rw [(hresolve d₁ str h₁ hblank hu₁).2 f hff] at hok₁
      rw [(hresolve d₂ str h₂ hblank hu₂).2 f hff] at hok₂
      cases hok₁
      cases hok₂
      rfl
  · intro s p newId now c s' hok hp
    obtain ⟨v, img, hnc, hordv, haf, hc, hs'⟩ := create_ok_inversion hok
    rw [hclear { image_id := p.image_id, image_url := p.image_url } hp] at haf
    cases haf
    rw [hc]
    exact ⟨rfl, rfl⟩
  · intro s i p now c s' hok hp
    obtain ⟨current, img, hcur, hpc, hnc, haf, hnn, current₂, hfb, hc, hs'⟩ :=
      update_ok_inversion hok
    rw [hclear { image_id := p.image_id, image_url := p.image_url } hp] at haf
    cases haf
    rw [hc]
    exact ⟨rfl, rfl⟩

/-- Witness for C9 at concrete data: a blank-string image id is cleared,
and the id "img1" resolves to its stored url. -/
theorem image_autofill_spec_witness :
    autofillImage [{ id := "img1", url := some "u" }] { image_id := some (some " ") }
      = .ok { image_id := some none, image_url := some none } ∧
    autofillImage [{ id := "img1", url := some "u" }] { image_id := some (some "img1") }
      = .ok { image_id := some (some "img1"), image_url := some (some "u") } := by
  constructor
  · exact (image_autofill_spec [{ id := "img1", url := some "u" }]).1
      { image_id := some (some " ") } (Or.inr ⟨" ", rfl, by decide⟩)
  · exact ((image_autofill_spec [{ id := "img1", url := some "u" }]).2.1
      { image_id := some (some "img1") } "img1" rfl (by decide) rfl).2
      { id := "img1", url := some "u" } rfl

/-! Claim C3: per-parent name uniqueness across create and update runs. -/

theorem nameClash_false_elim {s : Store} {n pid : Option String} {i : String}
    (h : nameClash s n pid (some i) = false) :
    ∀ x ∈ s, x.id ≠ i → x.parent_id = pid → x.name ≠ n := by
  intro x hx hxi hxp hxn
  have hmem : (x.name == n && x.parent_id == pid &&
      (match some i with | none => true | some e => x.id != e)) = true := by
    simp [hxn, hxp, hxi]
  have hany : nameClash s n pid (some i) = true :=
    List.any_eq_true.mpr ⟨x, hx, hmem⟩
  rw [h] at hany
  cases hany

theorem nameClash_false_elim_none {s : Store} {n pid : Option String}
    (h : nameClash s n pid none = false) :
    ∀ x ∈ s, x.parent_id = pid → x.name ≠ n := by
  intro x hx hxp hxn
  have hmem : (x.name == n && x.parent_id == pid &&
      (match (none : Option String) with | none => true | some e => x.id != e)) = true := by
    simp [hxn, hxp]
  have hany : nameClash s n pid none = true :=
    List.any_eq_true.mpr ⟨x, hx, hmem⟩
  rw [h] at hany
  cases hany

theorem create_preserves_invariants {fs : FileStore} {s : Store}
    {p : CategoryCreate} {newId : String} {now : Nat} {c : Category} {s' : Store}
    (hids : NodupIds s) (hI1 : NamesUnique s) (hfresh : newId ∉ s.map (·.id))
    (hok : create fs s p newId now = (.ok c, s')) :
    NamesUnique s' ∧ NodupIds s' := by
  obtain ⟨v, img, hnc, -, -, hc, hs'⟩ := create_ok_inversion hok
  subst hs'
  constructor
  · unfold NamesUnique
    rw [List.pairwise_append]
    refine ⟨hI1, by simp, ?_⟩
    intro a ha b hb hpar
    rw [List.mem_singleton.mp hb] at hpar ⊢
    have hcp : c.parent_id = p.parent_id := by rw [hc]
    have hcn : c.name = some p.name := by rw [hc]
    rw [hcn]
    exact nameClash_false_elim_none hnc a ha (by rw [hpar, hcp])
  · unfold NodupIds
    rw [List.map_append]
    have hcid : c.id = newId := by rw [hc]
    rw [List.nodup_append]
    refine ⟨hids, by simp, ?_⟩
    intro x hx
    simp only [List.map_cons, List.map_nil, List.mem_singleton, hcid]
    intro hxc
    rw [hxc] at hx
    exact hfresh hx

theorem update_preserves_invariants {fs : FileStore} {s : Store} {i : String}
    {p : CategoryUpdate} {now : Nat} {c : Category} {s' : Store}
    (hids : NodupIds s) (hI1 : NamesUnique s)
    (hok : update fs s i p now = (.ok (some c), s')) :
    NamesUnique s' ∧ NodupIds s' := by
  obtain ⟨h, current, hcur, hpc, hnc, hs', hid, hother, htarget⟩ :=
    update_ok_shape hids hok
  subst hs'
  have hids' : NodupIds (s.map h) := by
    unfold NodupIds
    rw [List.map_map]
    have hcomp : ((fun x => x.id) ∘ h) = fun (x : Category) => x.id := by
      funext x
      exact hid x
    rw [hcomp]
    exact hids
  refine ⟨?_, hids'⟩
  unfold NamesUnique
  rw [List.pairwise_map]
  have hidpair : s.Pairwise (fun a b => a.id ≠ b.id) := by
    have hn := hids
    unfold NodupIds at hn
    rw [List.Nodup, List.pairwise_map] at hn
    exact hn
  have hcomb := List.Pairwise.and hI1 hidpair
  refine List.Pairwise.imp_of_mem ?_ hcomb
  intro a b ha hb hab
  obtain ⟨hR, hne⟩ := hab
  intro hpar
  by_cases hai : a.id = i
  · have ha' : a = current := by
      have h1 := findById_self hids ha
      rw [hai, hcur] at h1
      exact (Option.some.inj h1).symm
    by_cases hbi : b.id = i
    · exact absurd (hai.trans hbi.symm) hne
    · rw [(htarget a hai).1]
      rw [(htarget a hai).2, (hother b hbi).2] at hpar
      rw [ha'] at hpar ⊢
      rw [(hother b hbi).1]
      exact fun hcon =>
        nameClash_false_elim hnc b hb hbi hpar.symm hcon.symm
  · by_cases hbi : b.id = i
    · have hb' : b = current := by
        have h1 := findById_self hids hb
        rw [hbi, hcur] at h1
        exact (Option.some.inj h1).symm
      rw [(htarget b hbi).1]
      rw [(htarget b hbi).2, (hother a hai).2] at hpar
      rw [hb'] at hpar ⊢
      rw [(hother a hai).1]
      exact nameClash_false_elim hnc a ha hai hpar
    · rw [(hother a hai).1, (hother b hbi).1]
      rw [(hother a hai).2, (hother b hbi).2] at hpar
      exact hR hpar

/-- One engine write operation, as property P1 quantifies over them. -/
inductive Op where
  | createOp (p : CategoryCreate) (newId : String) (now : Nat)
  | updateOp (i : String) (p : CategoryUpdate) (now : Nat)

/-- A sequential run of engine operations in which every operation returns
without raising; each create consumes a fresh `uuid4` identifier. -/
inductive Runs (fs : FileStore) : Store → List Op → Store → Prop where
  | nil (s : Store) : Runs fs s [] s
  | createStep {s s' s'' : Store} {c : Category} {p : CategoryCreate}
      {newId : String} {now : Nat} {ops : List Op} :
      create fs s p newId now = (.ok c, s') →
      newId ∉ s.map (·.id) →
      Runs fs s' ops s'' →
      Runs fs s (Op.createOp p newId now :: ops) s''
  | updateStep {s s' s'' : Store} {r : Option Category} {i : String}
      {p : CategoryUpdate} {now : Nat} {ops : List Op} :
      update fs s i p now = (.ok r, s') →
      Runs fs s' ops s'' →
      Runs fs s (Op.updateOp i p now :: ops) s''

/-- C3: starting from a store with unique ids and per-parent-unique names,
after any sequence of successful create and update operations executed
sequentially the name values under every fixed parent are pairwise
distinct: create rejects a duplicate (name, parent_id) pair before
inserting, and update re-validates uniqueness on the effective post-patch
(name, parent_id) pair excluding the record being updated. -/
theorem runs_preserve_name_uniqueness (fs : FileStore) {s s' : Store}
    {ops : List Op} (hids : NodupIds s) (hI1 : NamesUnique s)
    (hrun : Runs fs s ops s') : NamesUnique s' ∧ NodupIds s' := by
  induction hrun with
  | nil s => exact ⟨hI1, hids⟩
  | createStep hok hfresh hrest ih =>
    obtain ⟨h1, h2⟩ := create_preserves_invariants hids hI1 hfresh hok
    exact ih h2 h1
  | updateStep hok hrest ih =>
    rename_i s₀ s₁ s₂ r i p now ops
    cases r with
    | none =>
      have hsame := update_none_unchanged hok
      subst hsame
      exact ih hids hI1
    | some c =>
      obtain ⟨h1, h2⟩ := update_preserves_invariants hids hI1 hok
      exact ih h2 h1

/-- Witness for C3: a one-create run from the empty store. -/
theorem runs_preserve_name_uniqueness_witness :
    NamesUnique [({ id := "a", name := some "A", order := some 0 } : Category)] :=
  (runs_preserve_name_uniqueness [] (s := []) (by decide) (by decide)
    (Runs.createStep
      (show create [] [] { name := "A" } "a" 0
          = (.ok { id := "a", name := some "A", order := some 0 },
             [{ id := "a", name := some "A", order := some 0 }]) from rfl)
      (by decide) (Runs.nil _))).1

/-! Claim C8: list filtering, ordering and pagination. -/

theorem optLe_trans {α : Type} [LinearOrder α] {x y z : Option α}
    (h1 : optLe (fun a b => decide (a ≤ b)) x y = true)
    (h2 : optLe (fun a b => decide (a ≤ b)) y z = true) :
    optLe (fun a b => decide (a ≤ b)) x z = true := by
  cases x <;> cases y <;> cases z <;> simp [optLe] at * <;> exact le_trans h1 h2

theorem optLe_antisymm {α : Type} [LinearOrder α] {x y : Option α}
    (h1 : optLe (fun a b => decide (a ≤ b)) x y = true)
    (h2 : optLe (fun a b => decide (a ≤ b)) y x = true) : x = y := by
  cases x <;> cases y <;> simp [optLe] at *
  exact le_antisymm h1 h2

theorem optLe_total {α : Type} [LinearOrder α] (x y : Option α) :
    (optLe (fun a b => decide (a ≤ b)) x y ||
     optLe (fun a b => decide (a ≤ b)) y x) = true := by
  cases x <;> cases y <;> simp [optLe]
  exact le_total _ _

theorem catKeyLe_total (a b : Category) : (catKeyLe a b || catKeyLe b a) = true := by
  unfold catKeyLe
  by_cases hp : (a.parent_id == b.parent_id) = true
  · have hp' : (b.parent_id == a.parent_id) = true := by
      rw [beq_iff_eq] at hp ⊢
      exact hp.symm
    rw [if_pos hp, if_pos hp']
    exact optLe_total a.order b.order
  · have hp' : ¬ (b.parent_id == a.parent_id) = true := by
      rw [beq_iff_eq] at hp ⊢
      exact fun h => hp h.symm
    rw [if_neg hp, if_neg hp']
    exact optLe_total a.parent_id b.parent_id

theorem catKeyLe_trans (a b c : Category) (hab : catKeyLe a b = true)
    (hbc : catKeyLe b c = true) : catKeyLe a c = true := by
  unfold catKeyLe at hab hbc ⊢
  by_cases h1 : (a.parent_id == b.parent_id) = true <;>
    by_cases h2 : (b.parent_id == c.parent_id) = true
  · rw [if_pos h1] at hab
    rw [if_pos h2] at hbc
    rw [beq_iff_eq] at h1 h2
    rw [if_pos (beq_iff_eq.mpr (h1.trans h2))]
    exact optLe_trans hab hbc
  · rw [if_pos h1] at hab
    rw [if_neg h2] at hbc
    rw [beq_iff_eq] at h1
    have hac : ¬ (a.parent_id == c.parent_id) = true := by
      rw [beq_iff_eq, h1]
      rw [beq_iff_eq] at h2
      exact h2
    rw [if_neg hac, h1]
    exact hbc
  · rw [if_neg h1] at hab
    rw [if_pos h2] at hbc
    rw [beq_iff_eq] at h2
    have hac : ¬ (a.parent_id == c.parent_id) = true := by
      rw [beq_iff_eq, ← h2]
      rw [beq_iff_eq] at h1
      exact h1
    rw [if_neg hac, ← h2]
    exact hab
  · rw [if_neg h1] at hab
    rw [if_neg h2] at hbc
    by_cases hac : (a.parent_id == c.parent_id) = true
    · exfalso
      rw [beq_iff_eq] at hac
      rw [← hac] at hbc
      have := optLe_antisymm hab hbc
      rw [beq_iff_eq] at h1
      exact h1 this
    · rw [if_neg hac]
      exact optLe_trans hab hbc

/-- C8: `list(filters, page, limit)` returns the records matching the
conjunction of equality filters sorted ascending by `(parent_id, order)`,
skipping `(page-1)*limit` records and taking at most `limit`, so the page
holds exactly `min limit (max 0 (total - (page-1)*limit))` items, and the
returned total counts all matching records ignoring pagination. -/
theorem list_pagination_spec (s : Store) (f : ListFilters) (page limit : Nat)
    (hp : 1 ≤ page) (hl : 1 ≤ limit) :
    (listCategories s f page limit).2 = (s.filter (matchesFilters f)).length ∧
    (listCategories s f page limit).1.length
      = min limit (max 0 ((listCategories s f page limit).2 - (page - 1) * limit)) ∧
    List.Pairwise (fun a b => catKeyLe a b = true) (listCategories s f page limit).1 ∧
    (∀ c ∈ (listCategories s f page limit).1, c ∈ s ∧ matchesFilters f c = true) := by
  refine ⟨rfl, ?_, ?_, ?_⟩
  · show ((((s.filter (matchesFilters f)).mergeSort catKeyLe).drop
        ((page - 1) * limit)).take limit).length = _
    rw [List.length_take, List.length_drop, List.length_mergeSort]
    simp only [Nat.zero_max, min_comm]
    rfl
  · have hsorted := List.sorted_mergeSort catKeyLe_trans
      catKeyLe_total (s.filter (matchesFilters f))
    have hdrop := List.Pairwise.sublist
      (List.drop_sublist ((page - 1) * limit) _) hsorted
    exact List.Pairwise.sublist (List.take_sublist limit _) hdrop
  · intro c hc
    have hsub : c ∈ (s.filter (matchesFilters f)).mergeSort catKeyLe := by
      have h1 := (List.take_sublist limit _).subset hc
      exact (List.drop_sublist ((page - 1) * limit) _).subset h1
    have hmem : c ∈ s.filter (matchesFilters f) :=
      (List.mergeSort_perm (s.filter (matchesFilters f)) catKeyLe).subset hsub
    rw [List.mem_filter] at hmem
    exact ⟨hmem.1, hmem.2⟩

/-- Witness for C8: page 2 with limit 1 over a two-record store holds
exactly one item. -/
theorem list_pagination_spec_witness :
    (listCategories c6store {} 2 1).1.length
      = min 1 (max 0 ((listCategories c6store {} 2 1).2 - (2 - 1) * 1)) :=
  (list_pagination_spec c6store {} 2 1 (by decide) (by decide)).2.1

/-! Claim C10: termination of the ancestor-chain walk. -/

/-- A chain of parent steps as the service walks them: from `a`, `get`
finds a record whose parent is the next chain element, and so on. -/
def RecordChain (s : Store) : String → List String → Prop
  | _, [] => True
  | a, b :: l => StepsTo s a b ∧ RecordChain s b l

theorem stepsTo_parentLink {s : Store} {a b : String} (h : StepsTo s a b) :
    ParentLink s a b := by
  obtain ⟨r, hfind, hpar⟩ := h
  obtain ⟨hr, hrid⟩ := mem_of_findById hfind
  exact ⟨r, hr, hrid, hpar⟩

theorem recordChain_reach {s : Store} {a x : String} {l : List String}
    (hchain : RecordChain s a l) (hx : x ∈ l) :
    Relation.TransGen (StepsTo s) a x := by
  induction l generalizing a with
  | nil => cases hx
  | cons b l' ih =>
    obtain ⟨hstep, hrest⟩ := hchain
    rcases List.mem_cons.mp hx with rfl | hx'
    · exact Relation.TransGen.single hstep
    · exact Relation.TransGen.head hstep (ih hrest hx')

theorem recordChain_suffix {s : Store} {a b : String} {l l₁ l₂ : List String}
    (hchain : RecordChain s a l) (heq : l = l₁ ++ b :: l₂) :
    RecordChain s b l₂ := by
  induction l₁ generalizing a l with
  | nil =>
    subst heq
    exact hchain.2
  | cons y l₁' ih =>
    subst heq
    exact ih hchain.2 rfl

theorem recordChain_sources {s : Store} {a : String} {l : List String}
    (hchain : RecordChain s a l) :
    ∀ x ∈ (a :: l).take l.length, ∃ r ∈ s, r.id = x := by
  induction l generalizing a with
  | nil =>
    intro x hx
    cases hx
  | cons b l' ih =>
    intro x hx
    rw [List.length_cons, List.take_succ_cons] at hx
    rcases List.mem_cons.mp hx with rfl | hx'
    · obtain ⟨⟨r, hfind, hpar⟩, -⟩ := hchain
      obtain ⟨hr, hrid⟩ := mem_of_findById hfind
      exact ⟨r, hr, hrid⟩
    · exact ih hchain.2 x hx'

theorem walk_fuelOut_chain {s : Store} {t c : String} {n : Nat}
    (h : walkNoLoop s t n (some c) = .fuelOut) :
    ∃ l : List String, l.length = n ∧ RecordChain s c l := by
  induction n generalizing c with
  | zero => exact ⟨[], rfl, trivial⟩
  | succ n ih =>
    unfold walkNoLoop at h
    by_cases hct : c = t
    · rw [if_pos hct] at h
      cases h
    · rw [if_neg hct] at h
      cases hfind : findById s c with
      | none =>
        simp only [hfind] at h
        cases h
      | some r =>
        simp only [hfind] at h
        cases hpar : r.parent_id with
        | none =>
          rw [hpar] at h
          simp [walkNoLoop] at h
        | some b =>
          rw [hpar] at h
          obtain ⟨l', hlen, hchain⟩ := ih h
          exact ⟨b :: l', by simp [hlen], ⟨r, hfind, hpar⟩, hchain⟩

theorem dup_sublist_decomp {x : String} {L : List String}
    (h : [x, x].Sublist L) : ∃ l₁ l₂, L = l₁ ++ x :: l₂ ∧ x ∈ l₂ := by
  induction L with
  | nil => cases h
  | cons y L' ih =>
    cases h with
    | cons _ h' =>
      obtain ⟨l₁, l₂, heq, hx⟩ := ih h'
      exact ⟨y :: l₁, l₂, by rw [heq]; rfl, hx⟩
    | cons₂ _ h' =>
      exact ⟨[], L', rfl, h'.subset (by simp)⟩

/-- C10: on every store whose parent graph is acyclic, the ancestor-chain
walk of `_validate_no_loop` terminates within `|store| + 1` steps: each
step moves to the parent of the current record, and the walk stops on a
null parent link, a missing record, or the target id — it never exhausts
its fuel. -/
theorem walk_terminates (s : Store) (target : String) (start : Option String)
    (hacyc : Acyclic s) :
    walkNoLoop s target (s.length + 1) start ≠ .fuelOut := by
  intro hfo
  cases start with
  | none => cases hfo
  | some c =>
    obtain ⟨l, hlen, hchain⟩ := walk_fuelOut_chain hfo
    have hLlen : ((c :: l).take l.length).length = l.length := by
      rw [List.length_take]
      simp
    have hsubset : ∀ x ∈ (c :: l).take l.length, x ∈ s.map (·.id) := by
      intro x hx
      obtain ⟨r, hr, hrid⟩ := recordChain_sources hchain x hx
      rw [← hrid]
      exact List.mem_map_of_mem _ hr
    have hnotnodup : ¬ ((c :: l).take l.length).Nodup := by
      intro hnd
      have hle := (hnd.subperm hsubset).length_le
      rw [hLlen, hlen, List.length_map] at hle
      omega
    rw [List.nodup_iff_sublist] at hnotnodup
    push_neg at hnotnodup
    obtain ⟨x, hxx⟩ := hnotnodup
    have hxcl : [x, x].Sublist (c :: l) :=
      hxx.trans (List.take_sublist _ _)
    obtain ⟨l₁, l₂, heq, hxl₂⟩ := dup_sublist_decomp hxcl
    cases l₁ with
    | nil =>
      simp only [List.nil_append, List.cons.injEq] at heq
      have hxl : x ∈ l := by rw [heq.2]; exact hxl₂
      have hreach := recordChain_reach hchain hxl
      rw [heq.1] at hreach
      exact hacyc x (hreach.mono (fun a b h => stepsTo_parentLink h))
    | cons y l₁' =>
      simp only [List.cons_append, List.cons.injEq] at heq
      obtain ⟨rfl, hl⟩ := heq
      have hsuffix := recordChain_suffix hchain hl
      exact hacyc x ((recordChain_reach hsuffix hxl₂).mono
        (fun a b h => stepsTo_parentLink h))

/-- Acyclicity holds in particular when no record has a parent. -/
theorem acyclic_of_no_parents {s : Store} (h : ∀ c ∈ s, c.parent_id = none) :
    Acyclic s := by
  intro a hcycle
  obtain ⟨b, hab, -⟩ := Relation.TransGen.head'_iff.mp hcycle
  obtain ⟨r, hr, -, hpar⟩ := hab
  rw [h r hr] at hpar
  cases hpar

/-- Witness for C10 on a concrete acyclic store. -/
theorem walk_terminates_witness :
    walkNoLoop c6store "a" (c6store.length + 1) (some "b") ≠ .fuelOut :=
  walk_terminates c6store "a" (some "b") (acyclic_of_no_parents (by decide))

/-! Claim C4: parent-change validation (cycles, missing parent). -/

theorem walk_ok_not_reach {s : Store} {t : String} {n : Nat} {c : String}
    (h : walkNoLoop s t n (some c) = .ok) :
    ¬ Relation.ReflTransGen (StepsTo s) c t := by
  induction n generalizing c with
  | zero => simp [walkNoLoop] at h
  | succ n ih =>
    intro hreach
    unfold walkNoLoop at h
    by_cases hct : c = t
    · rw [if_pos hct] at h
      cases h
    · rw [if_neg hct] at h
      rcases hreach.cases_head with heq | ⟨b, hstep, hrest⟩
      · exact hct heq
      · obtain ⟨r, hfind, hpar⟩ := hstep
        simp only [hfind, hpar] at h
        exact ih h hrest

theorem parentLink_stepsTo {s : Store} (hids : NodupIds s) {a b : String}
    (h : ParentLink s a b) : StepsTo s a b := by
  obtain ⟨r, hr, hrid, hpar⟩ := h
  refine ⟨r, ?_, hpar⟩
  rw [← hrid]
  exact findById_self hids hr

theorem parentLink_map {s : Store} {h : Category → Category} {i : String}
    {pid : Option String}
    (hid : ∀ x, (h x).id = x.id)
    (hne : ∀ x, x.id ≠ i → (h x).parent_id = x.parent_id)
    (htar : ∀ x, x.id = i → (h x).parent_id = pid)
    {a b : String} (hab : ParentLink (s.map h) a b) :
    (a = i ∧ pid = some b) ∨ (a ≠ i ∧ ParentLink s a b) := by
  obtain ⟨r', hr', hrid, hpar⟩ := hab
  obtain ⟨x, hx, rfl⟩ := List.mem_map.mp hr'
  by_cases hxi : x.id = i
  · left
    constructor
    · rw [← hrid, hid x, hxi]
    · rw [← hpar, htar x hxi]
  · right
    constructor
    · rw [← hrid, hid x]
      exact hxi
    · refine ⟨x, hx, by rw [← hrid, hid x], ?_⟩
      rw [← hne x hxi]
      exact hpar

theorem chain_back_to_old {s : Store} {h : Category → Category} {i : String}
    {pid : Option String}
    (hid : ∀ x, (h x).id = x.id)
    (hne : ∀ x, x.id ≠ i → (h x).parent_id = x.parent_id)
    (htar : ∀ x, x.id = i → (h x).parent_id = pid)
    {b : String}
    (hreach : Relation.ReflTransGen (ParentLink (s.map h)) b i) :
    Relation.ReflTransGen (ParentLink s) b i := by
  induction hreach using Relation.ReflTransGen.head_induction_on with
  | refl => exact Relation.ReflTransGen.refl
  | head hstep hrest ih =>
    rename_i a c
    by_cases hai : a = i
    · rw [hai]
    · rcases parentLink_map hid hne htar hstep with ⟨hcon, -⟩ | ⟨-, hlink⟩
      · exact absurd hcon hai
      · exact Relation.ReflTransGen.head hlink ih

/-- C4: for every stored category and every patch with a non-null
parent_id, update walks the new parent's ancestor chain: if the target id
equals the new parent or is one of its ancestors, the update fails with
the Cycle error and the store is unchanged; if the new parent does not
exist, the update fails with NotFound(parent) and the store is unchanged;
and after a successful update the category is never its own ancestor. -/
theorem update_parent_cycle_spec (fs : FileStore) (s : Store) (i : String)
    (p : CategoryUpdate) (now : Nat) (pid : String) (cur : Category)
    (hids : NodupIds s) (hacyc : Acyclic s)
    (hfind : findById s i = some cur)
    (hpatch : p.parent_id = some (some pid)) :
    ((pid = i ∨ Relation.TransGen (ParentLink s) pid i) →
      update fs s i p now = (.error .cycleDetected, s)) ∧
    (findById s pid = none → update fs s i p now = (.error .parentNotFound, s)) ∧
    (∀ c s', update fs s i p now = (.ok (some c), s') →
      ¬ Relation.TransGen (ParentLink s') i i) := by
  refine ⟨?_, ?_, ?_⟩
  · intro hanc
    have hnotok : walkNoLoop s i (s.length + 1) (some pid) ≠ .ok := by
      intro hok
      have hnr := walk_ok_not_reach hok
      rcases hanc with rfl | htg
      · exact hnr Relation.ReflTransGen.refl
      · exact hnr ((htg.mono (fun a b hh => parentLink_stepsTo hids hh)).to_reflTransGen)
    have hnotfo : walkNoLoop s i (s.length + 1) (some pid) ≠ .fuelOut :=
      walk_terminates s i (some pid) hacyc
    have hwalk : walkNoLoop s i (s.length + 1) (some pid) = .cycle := by
      cases hw : walkNoLoop s i (s.length + 1) (some pid)
      · exact absurd hw hnotok
      · rfl
      · exact absurd hw hnotfo
    have hpc : parentCheck s i p = .error .cycleDetected := by
      unfold parentCheck
      simp only [hpatch, hwalk]
    unfold update
    simp only [hfind, hpc]
  · intro hmiss
    have hpidne : pid ≠ i := by
      intro hcon
      rw [hcon, hfind] at hmiss
      cases hmiss
    have hwalk : walkNoLoop s i (s.length + 1) (some pid) = .ok := by
      unfold walkNoLoop
      rw [if_neg hpidne]
      simp only [hmiss]
    have hpc : parentCheck s i p = .error .parentNotFound := by
      unfold parentCheck
      simp only [hpatch, hwalk, hmiss]
      rfl
    unfold update
    simp only [hfind, hpc]
  · intro c s' hok hcycle
    obtain ⟨h, current, hcur, hpc, hnc, hs', hid, hother, htarget⟩ :=
      update_ok_shape hids hok
    have heff : ∀ x : Category, effectiveParent x p = some pid := by
      intro x
      unfold effectiveParent
      rw [hpatch]
    have hne : ∀ x : Category, x.id ≠ i → (h x).parent_id = x.parent_id :=
      fun x hx => (hother x hx).2
    have htar : ∀ x : Category, x.id = i → (h x).parent_id = some pid :=
      fun x hx => (htarget x hx).2.trans (heff x)
    have hwalk : walkNoLoop s i (s.length + 1) (some pid) = .ok :=
      (parentCheck_ok_inversion hpc hpatch).1
    rw [hs'] at hcycle
    obtain ⟨b, hib, hrest⟩ := Relation.TransGen.head'_iff.mp hcycle
    rcases parentLink_map hid hne htar hib with ⟨-, hb⟩ | ⟨hcon, -⟩
    · cases hb
      have hold := chain_back_to_old hid hne htar hrest
      have hsteps := hold.mono (fun a b hh => parentLink_stepsTo hids hh)
      exact walk_ok_not_reach hwalk hsteps
    · exact hcon rfl

/-- Witness for C4 at a concrete store: pointing the only record at a
missing parent id fails with the parent-not-found error. -/
theorem update_parent_cycle_spec_witness :
    update [] [{ id := "a", name := some "A" }] "a"
      { parent_id := some (some "x") } 0
      = (.error .parentNotFound, [{ id := "a", name := some "A" }]) :=
  (update_parent_cycle_spec [] [{ id := "a", name := some "A" }] "a"
    { parent_id := some (some "x") } 0 "x" { id := "a", name := some "A" }
    (by decide) (acyclic_of_no_parents (by decide)) rfl rfl).2.1 rfl

/-! Claim C5: bulk reorder validation and effect. -/

theorem mem_insertDistinct {x q : Option String} {l : List (Option String)} :
    q ∈ insertDistinct x l ↔ q = x ∨ q ∈ l := by
  unfold insertDistinct
  by_cases hx : x ∈ l
  · rw [if_pos hx]
    constructor
    · exact fun h => Or.inr h
    · rintro (rfl | h)
      · exact hx
      · exact h
  · rw [if_neg hx]
    exact List.mem_cons

theorem two_mem_one_lt_length {α : Type} {l : List α} {a b : α}
    (ha : a ∈ l) (hb : b ∈ l) (hne : a ≠ b) : 1 < l.length := by
  cases l with
  | nil => cases ha
  | cons x rest =>
    cases rest with
    | nil =>
      rw [List.mem_singleton] at ha hb
      exact absurd (ha.trans hb.symm) hne
    | cons y rest' => simp

theorem length_le_one_mem_eq {α : Type} {l : List α} {a b : α}
    (hlen : l.length ≤ 1) (ha : a ∈ l) (hb : b ∈ l) : a = b := by
  cases l with
  | nil => cases ha
  | cons x rest =>
    cases rest with
    | nil =>
      rw [List.mem_singleton] at ha hb
      exact ha.trans hb.symm
    | cons y rest' => simp at hlen

theorem reorderValidate_ok_of (s : Store) (items : List ReorderItem)
    (parents : List (Option String)) (orders : List Int)
    (hnn : ∀ it ∈ items, 0 ≤ it.order)
    (hex : ∀ it ∈ items, (findById s it.id).isSome = true)
    (hnd : (items.map (·.order)).Nodup)
    (hdisj : ∀ it ∈ items, it.order ∉ orders) :
    ∃ ps, reorderValidate s items parents orders = .ok ps ∧
      (∀ q, q ∈ ps ↔ (q ∈ parents ∨ ∃ it ∈ items, ∃ cat,
        findById s it.id = some cat ∧ cat.parent_id = q)) := by
  induction items generalizing parents orders with
  | nil =>
    refine ⟨parents, rfl, ?_⟩
    intro q
    simp
  | cons item rest ih =>
    have hnn0 : ¬ item.order < 0 := by
      have := hnn item (List.mem_cons_self _ _)
      omega
    cases hfind : findById s item.id with
    | none =>
      have := hex item (List.mem_cons_self _ _)
      rw [hfind] at this
      cases this
    | some cat =>
      have hnotmem : item.order ∉ orders := hdisj item (List.mem_cons_self _ _)
      simp only [List.map_cons, List.nodup_cons] at hnd
      obtain ⟨ps, hps, hmem⟩ := ih (insertDistinct cat.parent_id parents)
        (item.order :: orders)
        (fun it hit => hnn it (List.mem_cons_of_mem _ hit))
        (fun it hit => hex it (List.mem_cons_of_mem _ hit))
        hnd.2
        (by
          intro it hit
          rw [List.mem_cons]
          push_neg
          constructor
          · intro hcon
            exact hnd.1 (hcon ▸ List.mem_map_of_mem _ hit)
          · exact hdisj it (List.mem_cons_of_mem _ hit))
      refine ⟨ps, ?_, ?_⟩
      · unfold reorderValidate
        rw [if_neg hnn0]
        simp only [hfind]
        rw [if_neg hnotmem]
        exact hps
      · intro q
        rw [hmem q, mem_insertDistinct]
        constructor
        · rintro ((rfl | hq) | ⟨it, hit, cat', hfind', hpar⟩)
          · exact Or.inr ⟨item, List.mem_cons_self _ _, cat, hfind, rfl⟩
          · exact Or.inl hq
          · exact Or.inr ⟨it, List.mem_cons_of_mem _ hit, cat', hfind', hpar⟩
        · rintro (hq | ⟨it, hit, cat', hfind', hpar⟩)
          · exact Or.inl (Or.inr hq)
          · rcases List.mem_cons.mp hit with rfl | hit'
            · rw [hfind] at hfind'
              cases hfind'
              exact Or.inl (Or.inl hpar.symm)
            · exact Or.inr ⟨it, hit', cat', hfind', hpar⟩

theorem reorderValidate_err_neg (s : Store) (items : List ReorderItem)
    (parents : List (Option String)) (orders : List Int)
    (hex : ∀ it ∈ items, (findById s it.id).isSome = true)
    (hbad : (∃ it ∈ items, it.order < 0) ∨ ¬ (items.map (·.order)).Nodup ∨
      (∃ it ∈ items, it.order ∈ orders)) :
    reorderValidate s items parents orders = .error .invalidOrder := by
  induction items generalizing parents orders with
  | nil =>
    rcases hbad with ⟨it, hit, -⟩ | hnd | ⟨it, hit, -⟩
    · cases hit
    · exact absurd (by simp) hnd
    · cases hit
  | cons item rest ih =>
    by_cases hneg : item.order < 0
    · unfold reorderValidate
      rw [if_pos hneg]
    · cases hfind : findById s item.id with
      | none =>
        have := hex item (List.mem_cons_self _ _)
        rw [hfind] at this
        cases this
      | some cat =>
        by_cases hdup : item.order ∈ orders
        · unfold reorderValidate
          rw [if_neg hneg]
          simp only [hfind]
          rw [if_pos hdup]
        · have hrest : (∃ it ∈ rest, it.order < 0) ∨ ¬ (rest.map (·.order)).Nodup ∨
              (∃ it ∈ rest, it.order ∈ item.order :: orders) := by
            rcases hbad with ⟨it, hit, hlt⟩ | hnd | ⟨it, hit, hin⟩
            · rcases List.mem_cons.mp hit with rfl | hit'
              · exact absurd hlt hneg
              · exact Or.inl ⟨it, hit', hlt⟩
            · simp only [List.map_cons, List.nodup_cons] at hnd
              push_neg at hnd
              by_cases hh : item.order ∈ rest.map (·.order)
              · obtain ⟨it, hit, hio⟩ := List.mem_map.mp hh
                exact Or.inr (Or.inr ⟨it, hit, by rw [hio]; exact List.mem_cons_self _ _⟩)
              · exact Or.inr (Or.inl (fun hcon => hnd hh hcon))
            · rcases List.mem_cons.mp hit with rfl | hit'
              · exact absurd hin hdup
              · exact Or.inr (Or.inr ⟨it, hit', List.mem_cons_of_mem _ hin⟩)
          unfold reorderValidate
          rw [if_neg hneg]
          simp only [hfind]
          rw [if_neg hdup]
          exact ih _ _ (fun it hit => hex it (List.mem_cons_of_mem _ hit)) hrest

theorem reorderValidate_err_missing (s : Store) (items : List ReorderItem)
    (parents : List (Option String)) (orders : List Int)
    (hnn : ∀ it ∈ items, 0 ≤ it.order)
    (hnd : (items.map (·.order)).Nodup)
    (hdisj : ∀ it ∈ items, it.order ∉ orders)
    (hmiss : ∃ it ∈ items, findById s it.id = none) :
    reorderValidate s items parents orders = .error .categoryNotFound := by
  induction items generalizing parents orders with
  | nil =>
    obtain ⟨it, hit, -⟩ := hmiss
    cases hit
  | cons item rest ih =>
    have hnn0 : ¬ item.order < 0 := by
      have := hnn item (List.mem_cons_self _ _)
      omega
    cases hfind : findById s item.id with
    | none =>
      unfold reorderValidate
      rw [if_neg hnn0]
      simp only [hfind]
    | some cat =>
      have hnotmem : item.order ∉ orders := hdisj item (List.mem_cons_self _ _)
      simp only [List.map_cons, List.nodup_cons] at hnd
      have hmiss' : ∃ it ∈ rest, findById s it.id = none := by
        obtain ⟨it, hit, hm⟩ := hmiss
        rcases List.mem_cons.mp hit with rfl | hit'
        · rw [hfind] at hm
          cases hm
        · exact ⟨it, hit', hm⟩
      unfold reorderValidate
      rw [if_neg hnn0]
      simp only [hfind]
      rw [if_neg hnotmem]
      refine ih _ _ (fun it hit => hnn it (List.mem_cons_of_mem _ hit)) hnd.2 ?_ hmiss'
      intro it hit
      rw [List.mem_cons]
      push_neg
      refine ⟨?_, hdisj it (List.mem_cons_of_mem _ hit)⟩
      intro hcon
      exact hnd.1 (hcon ▸ List.mem_map_of_mem _ hit)

theorem reorderValidate_parents_mono (s : Store) (items : List ReorderItem)
    (parents : List (Option String)) (orders : List Int)
    (ps : List (Option String))
    (h : reorderValidate s items parents orders = .ok ps) :
    ∀ q ∈ parents, q ∈ ps := by
  induction items generalizing parents orders with
  | nil =>
    unfold reorderValidate at h
    cases h
    exact fun q hq => hq
  | cons item rest ih =>
    unfold reorderValidate at h
    by_cases hneg : item.order < 0
    · rw [if_pos hneg] at h
      cases h
    · rw [if_neg hneg] at h
      cases hfind : findById s item.id with
      | none =>
        simp only [hfind] at h
        cases h
      | some cat =>
        simp only [hfind] at h
        by_cases hdup : item.order ∈ orders
        · rw [if_pos hdup] at h
          cases h
        · rw [if_neg hdup] at h
          intro q hq
          exact ih _ _ h q (mem_insertDistinct.mpr (Or.inr hq))

theorem reorderValidate_orders_disjoint (s : Store) (items : List ReorderItem)
    (parents : List (Option String)) (orders : List Int)
    (ps : List (Option String))
    (h : reorderValidate s items parents orders = .ok ps) :
    ∀ it ∈ items, it.order ∉ orders := by
  induction items generalizing parents orders with
  | nil =>
    intro it hit
    cases hit
  | cons item rest ih =>
    unfold reorderValidate at h
    by_cases hneg : item.order < 0
    · rw [if_pos hneg] at h
      cases h
    · rw [if_neg hneg] at h
      cases hfind : findById s item.id with
      | none =>
        simp only [hfind] at h
        cases h
      | some cat =>
        simp only [hfind] at h
        by_cases hdup : item.order ∈ orders
        · rw [if_pos hdup] at h
          cases h
        · rw [if_neg hdup] at h
          intro it hit
          rcases List.mem_cons.mp hit with rfl | hit'
          · exact hdup
          · have := ih _ _ h it hit'
            rw [List.mem_cons] at this
            push_neg at this
            exact this.2

theorem reorderValidate_ok_elim (s : Store) (items : List ReorderItem)
    (parents : List (Option String)) (orders : List Int) (ps : List (Option String))
    (h : reorderValidate s items parents orders = .ok ps) :
    (∀ it ∈ items, 0 ≤ it.order ∧ (findById s it.id).isSome = true) ∧
    (items.map (·.order)).Nodup ∧
    (∀ it ∈ items, ∀ cat, findById s it.id = some cat → cat.parent_id ∈ ps) := by
  induction items generalizing parents orders with
  | nil => exact ⟨by simp, by simp, by simp⟩
  | cons item rest ih =>
    unfold reorderValidate at h
    by_cases hneg : item.order < 0
    · rw [if_pos hneg] at h
      cases h
    · rw [if_neg hneg] at h
      cases hfind : findById s item.id with
      | none =>
        simp only [hfind] at h
        cases h
      | some cat =>
        simp only [hfind] at h
        by_cases hdup : item.order ∈ orders
        · rw [if_pos hdup] at h
          cases h
        · rw [if_neg hdup] at h
          obtain ⟨ihall, ihnd, ihps⟩ := ih _ _ h
          have hpsmono : ∀ q ∈ insertDistinct cat.parent_id parents, q ∈ ps := by
            -- every parent inserted before or now survives into the final set
            intro q hq
            -- prove by a generic monotonicity argument below
            exact reorderValidate_parents_mono s rest _ _ ps h q hq
          refine ⟨?_, ?_, ?_⟩
          · intro it hit
            rcases List.mem_cons.mp hit with rfl | hit'
            · exact ⟨by omega, by rw [hfind]; rfl⟩
            · exact ihall it hit'
          · rw [List.map_cons, List.nodup_cons]
            refine ⟨?_, ihnd⟩
            intro hcon
            obtain ⟨it, hit, hio⟩ := List.mem_map.mp hcon
            -- it ∈ rest has the same order as item; the recursive validation
            -- carries item.order in its seen-orders set, so it must have failed
            have := reorderValidate_orders_disjoint s rest _ _ ps h it hit
            rw [hio] at this
            exact this (List.mem_cons_self _ _)
          · intro it hit cat' hfind'
            rcases List.mem_cons.mp hit with rfl | hit'
            · rw [hfind] at hfind'
              cases hfind'
              exact hpsmono _ (mem_insertDistinct.mpr (Or.inl rfl))
            · exact ihps it hit' cat' hfind'

theorem findById_updateFirstById {s : Store} {j : String} {f : Category → Category}
    (hf : ∀ x, (f x).id = x.id) (k : String) :
    findById (updateFirstById s j f) k
      = if k = j then (findById s j).map f else findById s k := by
  induction s with
  | nil =>
    by_cases hkj : k = j <;> simp [updateFirstById, findById, hkj]
  | cons c rest ih =>
    by_cases hcj : c.id = j
    · have hcj' : (c.id == j) = true := beq_iff_eq.mpr hcj
      have hfcj : ((f c).id == j) = true := by
        rw [hf c]
        exact hcj'
      by_cases hkj : k = j
      · subst hkj
        simp [updateFirstById, findById, hcj', hfcj, List.find?_cons]
      · have hck : (c.id == k) = false := by
          rw [beq_eq_false_iff_ne, hcj]
          exact fun hcon => hkj hcon.symm
        have hfck : ((f c).id == k) = false := by
          rw [hf c]
          exact hck
        simp [updateFirstById, findById, hcj', hkj, hck, hfck, List.find?_cons]
    · have hcj' : (c.id == j) = false := beq_eq_false_iff_ne.mpr hcj
      by_cases hck : c.id = k
      · have hck' : (c.id == k) = true := beq_iff_eq.mpr hck
        have hkj : ¬ k = j := by
          rw [← hck]
          exact fun hcon => hcj hcon
        simp [updateFirstById, findById, hcj', hck', hkj, List.find?_cons]
      · have hck' : (c.id == k) = false := beq_eq_false_iff_ne.mpr hck
        unfold findById at ih ⊢
        simp only [updateFirstById, hcj', Bool.false_eq_true, if_false,
          List.find?_cons, hck']
        exact ih

theorem applyReorder_find {s : Store} {items : List ReorderItem} {now : Nat}
    (hnd : (items.map (·.id)).Nodup) :
    (∀ it ∈ items, findById (applyReorder s items now) it.id
        = (findById s it.id).map
            (fun c => { c with order := some it.order, updated_at := now })) ∧
    (∀ k, k ∉ items.map (·.id) →
        findById (applyReorder s items now) k = findById s k) := by
  induction items generalizing s with
  | nil => exact ⟨by simp, fun k _ => rfl⟩
  | cons item rest ih =>
    simp only [List.map_cons, List.nodup_cons] at hnd
    obtain ⟨ih1, ih2⟩ := ih (s := updateFirstById s item.id
      (fun c => { c with order := some item.order, updated_at := now })) hnd.2
    have hstep : applyReorder s (item :: rest) now
        = applyReorder (updateFirstById s item.id
            (fun c => { c with order := some item.order, updated_at := now }))
            rest now := rfl
    constructor
    · intro it hit
      rcases List.mem_cons.mp hit with rfl | hit'
      · rw [hstep, ih2 it.id hnd.1,
          findById_updateFirstById
            (f := fun c => { c with order := some it.order, updated_at := now })
            (fun x => rfl) it.id, if_pos rfl]
      · have hne : it.id ≠ item.id := by
          intro hcon
          exact hnd.1 (hcon ▸ List.mem_map_of_mem _ hit')
        rw [hstep, ih1 it hit',
          findById_updateFirstById
            (f := fun c => { c with order := some item.order, updated_at := now })
            (fun x => rfl) it.id, if_neg hne]
    · intro k hk
      simp only [List.map_cons, List.mem_cons] at hk
      push_neg at hk
      rw [hstep, ih2 k hk.2,
        findById_updateFirstById
          (f := fun c => { c with order := some item.order, updated_at := now })
          (fun x => rfl) k, if_neg hk.1]

/-- C5: for every non-empty batch of (id, order) items, reorder fails with
`Conflict(mixed_parents)` when the referenced categories span more than one
parent (with per-item validation passing), fails with `Invalid(order)` when
a supplied order is negative or duplicated within the batch, fails with
`NotFound` when a referenced id does not exist, leaving the store untouched
in every failure case; only when all three preconditions hold does it set
each listed category's order to its given value, leaving unlisted records
unchanged. -/
theorem reorder_spec (s : Store) (items : List ReorderItem) (now : Nat)
    (hne : items ≠ []) :
    (((∀ it ∈ items, 0 ≤ it.order) ∧ (items.map (·.order)).Nodup ∧
      (∀ it ∈ items, (findById s it.id).isSome = true) ∧
      (∃ it₁ ∈ items, ∃ it₂ ∈ items, ∃ c₁ c₂,
        findById s it₁.id = some c₁ ∧ findById s it₂.id = some c₂ ∧
        c₁.parent_id ≠ c₂.parent_id)) →
      reorder s items now = (.error .mixedParents, s)) ∧
    (((∀ it ∈ items, (findById s it.id).isSome = true) ∧
      ((∃ it ∈ items, it.order < 0) ∨ ¬ (items.map (·.order)).Nodup)) →
      reorder s items now = (.error .invalidOrder, s)) ∧
    (((∀ it ∈ items, 0 ≤ it.order) ∧ (items.map (·.order)).Nodup ∧
      (∃ it ∈ items, findById s it.id = none)) →
      reorder s items now = (.error .categoryNotFound, s)) ∧
    (∀ s', reorder s items now = (.ok true, s') →
      ((∀ it ∈ items, 0 ≤ it.order ∧ (findById s it.id).isSome = true) ∧
       (items.map (·.order)).Nodup ∧
       (∀ it₁ ∈ items, ∀ it₂ ∈ items, ∀ c₁ c₂,
         findById s it₁.id = some c₁ → findById s it₂.id = some c₂ →
         c₁.parent_id = c₂.parent_id)) ∧
      ((items.map (·.id)).Nodup →
        (∀ it ∈ items, ∀ c, findById s it.id = some c →
          findById s' it.id
            = some { c with order := some it.order, updated_at := now }) ∧
        (∀ k, k ∉ items.map (·.id) → findById s' k = findById s k))) := by
  have hnonempty : items.isEmpty = false := by
    cases hi : items.isEmpty
    · rfl
    · exact absurd (List.isEmpty_iff.mp hi) hne
  refine ⟨?_, ?_, ?_, ?_⟩
  · rintro ⟨hnn, hnd, hex, it₁, hit₁, it₂, hit₂, c₁, c₂, hf₁, hf₂, hpar⟩
    obtain ⟨ps, hps, hmem⟩ := reorderValidate_ok_of s items [] [] hnn hex hnd
      (by simp)
    have hq₁ : c₁.parent_id ∈ ps :=
      (hmem _).mpr (Or.inr ⟨it₁, hit₁, c₁, hf₁, rfl⟩)
    have hq₂ : c₂.parent_id ∈ ps :=
      (hmem _).mpr (Or.inr ⟨it₂, hit₂, c₂, hf₂, rfl⟩)
    have hlen : 1 < ps.length := two_mem_one_lt_length hq₁ hq₂ hpar
    unfold reorder
    rw [hnonempty]
    simp [hps, hlen]
  · rintro ⟨hex, hbad⟩
    have herr := reorderValidate_err_neg s items [] [] hex
      (by
        rcases hbad with h | h
        · exact Or.inl h
        · exact Or.inr (Or.inl h))
    unfold reorder
    rw [hnonempty]
    simp [herr]
  · rintro ⟨hnn, hnd, hmiss⟩
    have herr := reorderValidate_err_missing s items [] [] hnn hnd (by simp) hmiss
    unfold reorder
    rw [hnonempty]
    simp [herr]
  · intro s' hok
    unfold reorder at hok
    rw [hnonempty] at hok
    simp only [Bool.false_eq_true, if_false] at hok
    cases hval : reorderValidate s items [] [] with
    | error e =>
      rw [hval] at hok
      exact absurd hok (by simp)
    | ok ps =>
      rw [hval] at hok
      by_cases hlen : ps.length > 1
      · simp [hlen] at hok
      · simp only [hlen, if_false] at hok
        simp only [Prod.mk.injEq] at hok
        obtain ⟨hall, hnd, hps⟩ := reorderValidate_ok_elim s items [] [] ps hval
        refine ⟨⟨hall, hnd, ?_⟩, ?_⟩
        · intro it₁ hit₁ it₂ hit₂ c₁ c₂ hf₁ hf₂
          exact length_le_one_mem_eq (by omega)
            (hps it₁ hit₁ c₁ hf₁) (hps it₂ hit₂ c₂ hf₂)
        · intro hndid
          obtain ⟨hres1, hres2⟩ := @applyReorder_find s items now hndid
          rw [← hok.2]
          exact ⟨fun it hit c hc => by rw [hres1 it hit, hc]; rfl, hres2⟩

/-- Concrete payload for the C5 witness: two roots swapped in one batch. -/
def c5items : List ReorderItem := [{ id := "d", order := 1 }, { id := "s", order := 0 }]

/-- Concrete store for the C5 witness. -/
def c5store : Store :=
  [{ id := "d", name := some "D", order := some 0 },
   { id := "s", name := some "S", order := some 1 }]

/-- Witness for C5: applying the valid same-parent batch sets "d" to
order 1. -/
theorem reorder_spec_witness :
    findById (applyReorder c5store c5items 3) "d"
      = some { id := "d", name := some "D", order := some 1, updated_at := 3 } := by
  have h := (reorder_spec c5store c5items 3 (by decide)).2.2.2
    (applyReorder c5store c5items 3) (by rfl)
  have h2 := (h.2 (by decide)).1 { id := "d", order := 1 } (by decide)
    { id := "d", name := some "D", order := some 0 } rfl
  exact h2.trans rfl

/-! Claim C1: single reorder with range shift. -/

/-- The per-record effect of the `update_many` range shift of
`reorder_single` (inlined form of the lambda inside `reorderSingle`). -/
def singleShift (tp : Option String) (cid : String) (cur nw : Int) (now : Nat)
    (c : Category) : Category :=
  if c.parent_id == tp &&
     (match c.order with
      | some o => decide (min cur nw ≤ o) && decide (o ≤ max cur nw)
      | none => false) &&
     c.id != cid
  then
    { c with
      order := c.order.map (fun o => o - (if nw > cur then 1 else -1)),
      updated_at := now }
  else c

theorem singleShift_id (tp : Option String) (cid : String) (cur nw : Int)
    (now : Nat) (c : Category) :
    (singleShift tp cid cur nw now c).id = c.id := by
  unfold singleShift
  split <;> rfl

theorem singleShift_parent (tp : Option String) (cid : String) (cur nw : Int)
    (now : Nat) (c : Category) :
    (singleShift tp cid cur nw now c).parent_id = c.parent_id := by
  unfold singleShift
  split <;> rfl

theorem singleShift_target (tp : Option String) (cid : String) (cur nw : Int)
    (now : Nat) (c : Category) (hc : c.id = cid) :
    singleShift tp cid cur nw now c = c := by
  unfold singleShift
  have hb : (c.id != cid) = false := by simp [hc]
  simp [hb]

theorem singleShift_none (tp : Option String) (cid : String) (cur nw : Int)
    (now : Nat) (c : Category) (ho : c.order = none) :
    singleShift tp cid cur nw now c = c := by
  unfold singleShift
  simp [ho]

theorem singleShift_other (tp : Option String) (cid : String) (cur nw : Int)
    (now : Nat) (c : Category) (hp : c.parent_id ≠ tp) :
    singleShift tp cid cur nw now c = c := by
  unfold singleShift
  have hb : (c.parent_id == tp) = false := beq_eq_false_iff_ne.mpr hp
  simp [hb]

theorem singleShift_in (tp : Option String) (cid : String) (cur nw : Int)
    (now : Nat) (c : Category) (o : Int) (hid : c.id ≠ cid)
    (hp : c.parent_id = tp) (ho : c.order = some o)
    (h1 : min cur nw ≤ o) (h2 : o ≤ max cur nw) :
    singleShift tp cid cur nw now c
      = { c with
          order := some (o - (if nw > cur then 1 else -1)),
          updated_at := now } := by
  unfold singleShift
  have hcond : (c.parent_id == tp &&
      (match c.order with
       | some o => decide (min cur nw ≤ o) && decide (o ≤ max cur nw)
       | none => false) &&
      c.id != cid) = true := by
    rw [ho]
    simp [hp, h1, h2, hid]
  rw [if_pos hcond, ho]
  rfl

theorem singleShift_out (tp : Option String) (cid : String) (cur nw : Int)
    (now : Nat) (c : Category) (o : Int) (ho : c.order = some o)
    (hout : ¬ (min cur nw ≤ o ∧ o ≤ max cur nw)) :
    singleShift tp cid cur nw now c = c := by
  unfold singleShift
  simp only [ho]
  rcases not_and_or.mp hout with h | h
  · simp [h]
  · simp [h]

/-- The composite per-record transformation of a non-trivial
`reorder_single`: the range shift followed by the target write. -/
def singleMove (tp : Option String) (cid : String) (cur nw : Int) (now : Nat)
    (c : Category) : Category :=
  if c.id = cid
  then { singleShift tp cid cur nw now c with order := some nw, updated_at := now }
  else singleShift tp cid cur nw now c

theorem singleMove_id (tp : Option String) (cid : String) (cur nw : Int)
    (now : Nat) (c : Category) :
    (singleMove tp cid cur nw now c).id = c.id := by
  unfold singleMove
  split
  · exact singleShift_id tp cid cur nw now c
  · exact singleShift_id tp cid cur nw now c

theorem singleMove_parent (tp : Option String) (cid : String) (cur nw : Int)
    (now : Nat) (c : Category) :
    (singleMove tp cid cur nw now c).parent_id = c.parent_id := by
  unfold singleMove
  split
  · exact singleShift_parent tp cid cur nw now c
  · exact singleShift_parent tp cid cur nw now c

theorem singleMove_order_target (tp : Option String) (cid : String)
    (cur nw : Int) (now : Nat) (c : Category) (hc : c.id = cid) :
    (singleMove tp cid cur nw now c).order = some nw := by
  unfold singleMove
  rw [if_pos hc]

theorem singleMove_nontarget (tp : Option String) (cid : String)
    (cur nw : Int) (now : Nat) (c : Category) (hc : c.id ≠ cid) :
    singleMove tp cid cur nw now c = singleShift tp cid cur nw now c := by
  unfold singleMove
  rw [if_neg hc]

theorem nodup_map_of_inj_on {α β : Type} {l : List α} {f g : α → β}
    (hnd : (l.map f).Nodup)
    (hinj : ∀ a ∈ l, ∀ b ∈ l, f a ≠ f b → g a ≠ g b) :
    (l.map g).Nodup := by
  rw [List.Nodup, List.pairwise_map] at hnd ⊢
  exact List.Pairwise.imp_of_mem (fun ha hb h => hinj _ ha _ hb h) hnd

theorem nodup_orders_preserved {s : Store} {p : Category → Bool}
    {f : Category → Category}
    (hppar : ∀ x, p (f x) = p x)
    (hnd : ((s.filter p).map (fun c => c.order)).Nodup)
    (hinj : ∀ a ∈ s.filter p, ∀ b ∈ s.filter p,
      a.order ≠ b.order → (f a).order ≠ (f b).order) :
    (((s.map f).filter p).map (fun c => c.order)).Nodup := by
  rw [List.filter_map]
  have hfc : List.filter (p ∘ f) s = List.filter p s :=
    List.filter_congr (fun a ha => by
      simp only [Function.comp]
      exact hppar a)
  rw [hfc, List.map_map]
  refine nodup_map_of_inj_on hnd ?_
  intro a ha b hb hne
  simp only [Function.comp]
  exact hinj a ha b hb hne

/-- C1: for every stored category and every non-negative `new_order`
different from its current order, a successful `reorder_single` shifts
every other sibling whose order lies in the closed range between the old
and the new order by one step opposite to the direction of the move
(by `-sign(new_order - current_order)`), leaves siblings outside the range
and other subtrees untouched, sets the target's order to `new_order`, and,
provided sibling orders were pairwise distinct beforehand, leaves the
sibling orders pairwise distinct with no newly introduced duplicate. -/
theorem reorder_single_spec (s : Store) (cid : String) (new_order : Int)
    (now : Nat) (target : Category) (cur : Int)
    (hids : NodupIds s)
    (hfind : findById s cid = some target)
    (hcur : target.order = some cur)
    (hnn : 0 ≤ new_order) (hnec : new_order ≠ cur)
    (hdist : ((s.filter (fun c => c.parent_id == target.parent_id)).map
      (fun c => c.order)).Nodup) :
    ∃ s', reorderSingle s cid new_order now = (.ok true, s') ∧
      (∀ c ∈ s, c.id ≠ cid → c.parent_id = target.parent_id →
        ∀ o, c.order = some o →
          ((min cur new_order ≤ o ∧ o ≤ max cur new_order) →
            findById s' c.id = some { c with
              order := some (o - (if new_order > cur then 1 else -1)),
              updated_at := now }) ∧
          (¬ (min cur new_order ≤ o ∧ o ≤ max cur new_order) →
            findById s' c.id = some c)) ∧
      (∀ c ∈ s, c.parent_id ≠ target.parent_id → findById s' c.id = some c) ∧
      findById s' cid
        = some { target with order := some new_order, updated_at := now } ∧
      ((s'.filter (fun c => c.parent_id == target.parent_id)).map
        (fun c => c.order)).Nodup := by
  have htid : target.id = cid := (mem_of_findById hfind).2
  have htmem : target ∈ s := (mem_of_findById hfind).1
  have hlt : ¬ new_order < 0 := by omega
  have hres : reorderSingle s cid new_order now
      = (.ok true, updateFirstById
          (s.map (singleShift target.parent_id cid cur new_order now)) cid
          (fun c => { c with order := some new_order, updated_at := now })) := by
    unfold reorderSingle
    rw [if_neg hlt]
    simp only [hfind, hcur]
    rw [if_neg hnec]
    rfl
  have hmapfind : ∀ j, findById
      (s.map (singleShift target.parent_id cid cur new_order now)) j
      = (findById s j).map (singleShift target.parent_id cid cur new_order now) :=
    fun j => findById_map (fun c => singleShift_id _ _ _ _ _ c) j
  have hupdfind : ∀ j, findById
      (updateFirstById (s.map (singleShift target.parent_id cid cur new_order now)) cid
        (fun c => { c with order := some new_order, updated_at := now })) j
      = if j = cid
        then (findById (s.map (singleShift target.parent_id cid cur new_order now)) cid).map
          (fun c => { c with order := some new_order, updated_at := now })
        else findById (s.map (singleShift target.parent_id cid cur new_order now)) j :=
    fun j => findById_updateFirstById
      (f := fun c => { c with order := some new_order, updated_at := now })
      (fun x => rfl) j
  refine ⟨_, hres, ?_, ?_, ?_, ?_⟩
  · intro c hc hcid hcp o ho
    constructor
    · rintro ⟨h1, h2⟩
      rw [hupdfind c.id, if_neg hcid, hmapfind c.id, findById_self hids hc,
        Option.map_some', singleShift_in _ _ _ _ _ c o hcid hcp ho h1 h2]
    · intro hout
      rw [hupdfind c.id, if_neg hcid, hmapfind c.id, findById_self hids hc,
        Option.map_some', singleShift_out _ _ _ _ _ c o ho hout]
  · intro c hc hcp
    have hcid : c.id ≠ cid := by
      intro hcon
      have h1 := findById_self hids hc
      rw [hcon, hfind] at h1
      exact hcp (by rw [Option.some.inj h1])
    rw [hupdfind c.id, if_neg hcid, hmapfind c.id, findById_self hids hc,
      Option.map_some', singleShift_other _ _ _ _ _ c hcp]
  · rw [hupdfind cid, if_pos rfl, hmapfind cid, hfind, Option.map_some',
      singleShift_target _ _ _ _ _ target htid]
    rfl
  · have hidsmap : NodupIds
        (s.map (singleShift target.parent_id cid cur new_order now)) := by
      unfold NodupIds
      rw [List.map_map]
      have hcomp : ((fun x => x.id) ∘ singleShift target.parent_id cid cur new_order now)
          = fun (x : Category) => x.id := by
        funext x
        exact singleShift_id _ _ _ _ _ x
      rw [hcomp]
      exact hids
    have hvalT : ∀ x : Category, x.id = cid →
        (if (singleShift target.parent_id cid cur new_order now x).id = cid
         then { singleShift target.parent_id cid cur new_order now x with
                order := some new_order, updated_at := now }
         else singleShift target.parent_id cid cur new_order now x).order
        = some new_order := by
      intro x hx
      have hgid : (singleShift target.parent_id cid cur new_order now x).id = cid := by
        rw [singleShift_id]
        exact hx
      rw [if_pos hgid]
    have hvalN : ∀ x : Category, x.id ≠ cid → x.order = none →
        (if (singleShift target.parent_id cid cur new_order now x).id = cid
         then { singleShift target.parent_id cid cur new_order now x with
                order := some new_order, updated_at := now }
         else singleShift target.parent_id cid cur new_order now x).order
        = none := by
      intro x hx ho
      have hgid : ¬ (singleShift target.parent_id cid cur new_order now x).id = cid := by
        rw [singleShift_id]
        exact hx
      rw [if_neg hgid, singleShift_none _ _ _ _ _ x ho, ho]
    have hvalI : ∀ (x : Category) (o : Int), x.id ≠ cid →
        x.parent_id = target.parent_id → x.order = some o →
        min cur new_order ≤ o → o ≤ max cur new_order →
        (if (singleShift target.parent_id cid cur new_order now x).id = cid
         then { singleShift target.parent_id cid cur new_order now x with
                order := some new_order, updated_at := now }
         else singleShift target.parent_id cid cur new_order now x).order
        = some (o - (if new_order > cur then 1 else -1)) := by
      intro x o hx hxp ho h1 h2
      have hgid : ¬ (singleShift target.parent_id cid cur new_order now x).id = cid := by
        rw [singleShift_id]
        exact hx
      rw [if_neg hgid, singleShift_in _ _ _ _ _ x o hx hxp ho h1 h2]
    have hvalO : ∀ (x : Category) (o : Int), x.id ≠ cid → x.order = some o →
        ¬ (min cur new_order ≤ o ∧ o ≤ max cur new_order) →
        (if (singleShift target.parent_id cid cur new_order now x).id = cid
         then { singleShift target.parent_id cid cur new_order now x with
                order := some new_order, updated_at := now }
         else singleShift target.parent_id cid cur new_order now x).order
        = some o := by
      intro x o hx ho hout
      have hgid : ¬ (singleShift target.parent_id cid cur new_order now x).id = cid := by
        rw [singleShift_id]
        exact hx
      rw [if_neg hgid, singleShift_out _ _ _ _ _ x o ho hout, ho]
    have hcu : ∀ x ∈ s, x.parent_id = target.parent_id →
        x.order = some cur → x = target := by
      intro x hx hxp hxo
      refine nodup_map_inj hdist ?_ ?_ ?_
      · exact List.mem_filter.mpr ⟨hx, by simp [hxp]⟩
      · exact List.mem_filter.mpr ⟨htmem, by simp⟩
      · rw [hxo, hcur]
    rw [updateFirstById_eq_map hidsmap, List.map_map]
    refine nodup_orders_preserved ?_ hdist ?_
    · intro x
      show ((if (singleShift target.parent_id cid cur new_order now x).id = cid
            then { singleShift target.parent_id cid cur new_order now x with
                   order := some new_order, updated_at := now }
            else singleShift target.parent_id cid cur new_order now x).parent_id
          == target.parent_id)
        = (x.parent_id == target.parent_id)
      by_cases hx : (singleShift target.parent_id cid cur new_order now x).id = cid
      · rw [if_pos hx]
        show ((singleShift target.parent_id cid cur new_order now x).parent_id
            == target.parent_id) = (x.parent_id == target.parent_id)
        rw [singleShift_parent]
      · rw [if_neg hx]
        rw [singleShift_parent]
    · intro a ha b hb hne
      have hamem := List.mem_filter.mp ha
      have hbmem := List.mem_filter.mp hb
      have hap : a.parent_id = target.parent_id := by simpa using hamem.2
      have hbp : b.parent_id = target.parent_id := by simpa using hbmem.2
      show (if (singleShift target.parent_id cid cur new_order now a).id = cid
           then { singleShift target.parent_id cid cur new_order now a with
                  order := some new_order, updated_at := now }
           else singleShift target.parent_id cid cur new_order now a).order
          ≠ (if (singleShift target.parent_id cid cur new_order now b).id = cid
           then { singleShift target.parent_id cid cur new_order now b with
                  order := some new_order, updated_at := now }
           else singleShift target.parent_id cid cur new_order now b).order
      have hida : a.id = cid → a = target := by
        intro hc
        have h1 := findById_self hids hamem.1
        rw [hc, hfind] at h1
        exact (Option.some.inj h1).symm
      have hidb : b.id = cid → b = target := by
        intro hc
        have h1 := findById_self hids hbmem.1
        rw [hc, hfind] at h1
        exact (Option.some.inj h1).symm
      by_cases hac : a.id = cid <;> by_cases hbc : b.id = cid
      · exact absurd (by rw [hida hac, hidb hbc]) hne
      · rw [hvalT a hac]
        cases hbo : b.order with
        | none =>
          rw [hvalN b hbc hbo]
          simp
        | some o =>
          by_cases hin : min cur new_order ≤ o ∧ o ≤ max cur new_order
          · rw [hvalI b o hbc hbp hbo hin.1 hin.2]
            intro heq
            rw [Option.some.injEq] at heq
            obtain ⟨h1, h2⟩ := hin
            by_cases hd : new_order > cur
            · rw [if_pos hd] at heq
              omega
            · rw [if_neg hd] at heq
              omega
          · rw [hvalO b o hbc hbo hin]
            intro heq
            rw [Option.some.injEq] at heq
            omega
      · rw [hvalT b hbc]
        cases hao : a.order with
        | none =>
          rw [hvalN a hac hao]
          simp
        | some o =>
          by_cases hin : min cur new_order ≤ o ∧ o ≤ max cur new_order
          · rw [hvalI a o hac hap hao hin.1 hin.2]
            intro heq
            rw [Option.some.injEq] at heq
            obtain ⟨h1, h2⟩ := hin
            by_cases hd : new_order > cur
            · rw [if_pos hd] at heq
              omega
            · rw [if_neg hd] at heq
              omega
          · rw [hvalO a o hac hao hin]
            intro heq
            rw [Option.some.injEq] at heq
            omega
      · cases hao : a.order with
        | none =>
          rw [hvalN a hac hao]
          cases hbo : b.order with
          | none => exact absurd (by rw [hao, hbo]) hne
          | some o₂ =>
            by_cases hin₂ : min cur new_order ≤ o₂ ∧ o₂ ≤ max cur new_order
            · rw [hvalI b o₂ hbc hbp hbo hin₂.1 hin₂.2]
              simp
            · rw [hvalO b o₂ hbc hbo hin₂]
              simp
        | some o₁ =>
          cases hbo : b.order with
          | none =>
            rw [hvalN b hbc hbo]
            by_cases hin₁ : min cur new_order ≤ o₁ ∧ o₁ ≤ max cur new_order
            · rw [hvalI a o₁ hac hap hao hin₁.1 hin₁.2]
              simp
            · rw [hvalO a o₁ hac hao hin₁]
              simp
          | some o₂ =>
            have hne' : o₁ ≠ o₂ := by
              intro h
              apply hne
              rw [hao, hbo, h]
            by_cases hin₁ : min cur new_order ≤ o₁ ∧ o₁ ≤ max cur new_order <;>
              by_cases hin₂ : min cur new_order ≤ o₂ ∧ o₂ ≤ max cur new_order
            · rw [hvalI a o₁ hac hap hao hin₁.1 hin₁.2,
                hvalI b o₂ hbc hbp hbo hin₂.1 hin₂.2]
              intro heq
              rw [Option.some.injEq] at heq
              by_cases hd : new_order > cur
              · rw [if_pos hd] at heq
                omega
              · rw [if_neg hd] at heq
                omega
            · rw [hvalI a o₁ hac hap hao hin₁.1 hin₁.2, hvalO b o₂ hbc hbo hin₂]
              intro heq
              rw [Option.some.injEq] at heq
              obtain ⟨h1, h2⟩ := hin₁
              have ho₁cur : o₁ = cur := by
                by_cases hd : new_order > cur
                · rw [if_pos hd] at heq
                  omega
                · rw [if_neg hd] at heq
                  omega
              exact hac (by rw [hcu a hamem.1 hap (by rw [hao, ho₁cur]), htid])
            · rw [hvalO a o₁ hac hao hin₁,
                hvalI b o₂ hbc hbp hbo hin₂.1 hin₂.2]
              intro heq
              rw [Option.some.injEq] at heq
              obtain ⟨h1, h2⟩ := hin₂
              have ho₂cur : o₂ = cur := by
                by_cases hd : new_order > cur
                · rw [if_pos hd] at heq
                  omega
                · rw [if_neg hd] at heq
                  omega
              exact hbc (by rw [hcu b hbmem.1 hbp (by rw [hbo, ho₂cur]), htid])
            · rw [hvalO a o₁ hac hao hin₁, hvalO b o₂ hbc hbo hin₂]
              intro heq
              rw [Option.some.injEq] at heq
              exact hne' heq

/-- Witness for C1, spec scenario 4: moving "Snacks" (order 1) to order 0
sets its order to 0 while "Drinks" is shifted out of the way. -/
theorem reorder_single_spec_witness :
    ∃ s', reorderSingle
      [{ id := "d", name := some "Drinks", order := some 0 },
       { id := "s", name := some "Snacks", order := some 1 }] "s" 0 7
      = (.ok true, s') ∧
      findById s' "s"
        = some { id := "s", name := some "Snacks", order := some 0, updated_at := 7 } := by
  obtain ⟨s', hres, hsib, hother, htarget, hnodup⟩ :=
    reorder_single_spec
      [{ id := "d", name := some "Drinks", order := some 0 },
       { id := "s", name := some "Snacks", order := some 1 }] "s" 0 7
      { id := "s", name := some "Snacks", order := some 1 } 1
      (by decide) rfl rfl (by decide) (by decide) (by decide)
  exact ⟨s', hres, htarget.trans rfl⟩

end CategoryEngine
